import Mathlib

/-!
# ze_oss: pinhole camera projection, plotter loop and the minimal pose B-spline

A shallow embedding of

* `ze/cameras/camera_impl.h` (`PinholeProjection`),
* `ze/common/matrix.h` (`skewSymmetric`),
* `ze/pangolin/pangolin.hpp` and `pangolin.cpp` (`PangolinPlotter`),
* the numerical-Jacobian wrapper `FixedTimeBSplinePoseMinimal` of
  `ze_splines/test/test_bspline_pose_minimal.cpp`,
* the pose B-spline engine (`BSplinePoseMinimal`) that the wrapper drives; of
  the engine only the test suite is at hand, the engine is embedded from its
  specification.

`real_t` / `FloatType` are embedded as exact rationals, so every definition
below can be evaluated on concrete inputs. Errors (`OutOfRange`,
`InvalidArgument`) are values of `Except`; a member function that mutates the
spline returns the new spline.
-/

namespace ze

/-! ## Cameras (`ze/cameras/camera_impl.h`) -/

/-- Scalar type of the camera code (`FloatType`), embedded as exact rationals. -/
abbrev FloatType := ℚ

/-- Pixel coordinates (`Keypoint`, a 2-vector). -/
abbrev Keypoint := Fin 2 → FloatType

/-- Bearing vectors (`Bearing`, a 3-vector). -/
abbrev Bearing := Fin 3 → FloatType

/-- Landmark positions (`Position`, a 3-vector). -/
abbrev Position := Fin 3 → FloatType

/-- The type `Matrix22` of the camera code. -/
abbrev Matrix22 := Matrix (Fin 2) (Fin 2) FloatType

/-- The type `Matrix23` of the camera code. -/
abbrev Matrix23 := Matrix (Fin 2) (Fin 3) FloatType

/-- The two collaborators of `PinholeProjection` that live in
`ze/cameras/camera_models.h`, which is not part of the sources at hand; they are
taken as parameters.

* `distort params px` is `Distortion::distort(params, px, jac)`: it overwrites
  `px` with the distorted point and, when `jac` is given, stores the 2x2
  Jacobian there. The embedding returns both outputs.
* `pinholeProject params px` is `PinholeGeometry::project(params, px)`. -/
structure CameraModels where
  distort : List FloatType → Keypoint → Keypoint × Matrix22
  pinholeProject : (Fin 4 → FloatType) → Keypoint → Keypoint

/-- The state of a `Camera` that `PinholeProjection` reads:
`projection_params_` is `(fx, fy, cx, cy)`. -/
structure Camera where
  projection_params_ : Fin 4 → FloatType
  distortion_params_ : List FloatType

/-- `PinholeProjection::project`:
unit coordinates -> distortion -> pinhole, offset and scale. -/
def project (M : CameraModels) (cam : Camera) (bearing : Bearing) : Keypoint :=
  let px : Keypoint := ![bearing 0 / bearing 2, bearing 1 / bearing 2]
  let px := (M.distort cam.distortion_params_ px).1
  M.pinholeProject cam.projection_params_ px

/-- `PinholeProjection::dProject_dLandmark`. -/
def dProject_dLandmark (M : CameraModels) (cam : Camera) (pos : Position) : Matrix23 :=
  let z_inv : FloatType := 1 / pos 2
  let z_inv_sq : FloatType := z_inv * z_inv
  let px_unitplane : Keypoint := ![pos 0 * z_inv, pos 1 * z_inv]
  let J_dist : Matrix22 := (M.distort cam.distortion_params_ px_unitplane).2
  let fx := cam.projection_params_ 0
  let fy := cam.projection_params_ 1
  !![fx * J_dist 0 0 * z_inv, fx * J_dist 0 1 * z_inv,
       -fx * (pos 0 * J_dist 0 0 + pos 1 * J_dist 0 1) * z_inv_sq;
     fy * J_dist 1 0 * z_inv, fy * J_dist 1 1 * z_inv,
       -fy * (pos 0 * J_dist 1 0 + pos 1 * J_dist 1 1) * z_inv_sq]

/-- `PinholeProjection::projectWithJacobian`. -/
def projectWithJacobian (M : CameraModels) (cam : Camera) (pos : Position) :
    Keypoint × Matrix23 :=
  let px := project M cam pos
  let J := dProject_dLandmark M cam pos
  (px, J)

/-- The Jacobian of the perspective division `(x, y, z) ↦ (x / z, y / z)`. -/
def unitPlaneJacobian (pos : Position) : Matrix23 :=
  !![1 / pos 2, 0, -(pos 0) / (pos 2) ^ 2;
     0, 1 / pos 2, -(pos 1) / (pos 2) ^ 2]

/-- The models of `NoDistortion` and of the usual pinhole scaling
`px ↦ (fx * px.x + cx, fy * px.y + cy)`, used to evaluate the camera code on a
concrete input. -/
def pinholeModels : CameraModels where
  distort := fun _ px => (px, 1)
  pinholeProject := fun p px => ![p 0 * px 0 + p 2, p 1 * px 1 + p 3]

/-! ## The pose B-spline (`ze/splines/bspline_pose_minimal.hpp`)

Only the test suite of the spline is part of the sources at hand; the spline
engine itself is embedded from its specification. -/

/-- Scalar type of the spline code (`real_t`), embedded as exact rationals. -/
abbrev real_t := ℚ

/-- Dynamically sized vectors (`VectorX`). -/
abbrev VectorX := List real_t

/-- The type `Vector3` of the spline code. -/
abbrev Vector3 := Fin 3 → real_t

/-- Homogeneous coordinates (`Vector4`). -/
abbrev Vector4 := Fin 4 → real_t

/-- Curve values (`Vector6`): translation in components 0..2, rotation
parameters in components 3..5. -/
abbrev Vector6 := Fin 6 → real_t

/-- The type `Matrix3` of the spline code. -/
abbrev Matrix3 := Matrix (Fin 3) (Fin 3) real_t

/-- Poses as 4x4 homogeneous matrices (`Matrix4`). -/
abbrev Matrix4 := Matrix (Fin 4) (Fin 4) real_t

/-- Dynamically sized matrices (`MatrixX`), given by their dimensions and their
coefficient accessor `J(i, j)`. -/
structure MatrixX where
  rows : Nat
  cols : Nat
  coeff : Nat → Nat → real_t

/-- The product of a dynamic matrix with a dynamic vector. -/
def MatrixX.mulVec (J : MatrixX) (c : VectorX) : VectorX :=
  (List.range J.rows).map fun i => ∑ j in Finset.range J.cols, J.coeff i j * c.getD j 0

/-- The two failure classes of the spline: a query time outside the valid
domain, and a structurally invalid argument. -/
inductive SplineError where
  | OutOfRange
  | InvalidArgument
  deriving DecidableEq

/-- Modelled from the spec: the rotation parameterization `ROTATION` (here
`ze::sm::RotationVector`), a collaborator that is not part of the sources at
hand. The spec describes it as a pluggable capability: an exponential map
`parametersToRotationMatrix`, a logarithmic map `rotationMatrixToParameters`,
and the velocity map `parametersToSMatrix` (the derivative of the exponential
map, applied to a parameter rate). `domain` is the representation's defined
domain, on which the spec guarantees that `exp` followed by `log` returns the
parameter. -/
structure RotationParameterization where
  parametersToRotationMatrix : Vector3 → Matrix3
  rotationMatrixToParameters : Matrix3 → Vector3
  parametersToSMatrix : Vector3 → Matrix3
  domain : Vector3 → Prop
  log_exp : ∀ p, domain p → rotationMatrixToParameters (parametersToRotationMatrix p) = p

/-- Modelled from the spec: the state of `BSplinePoseMinimal`, which is not part
of the sources at hand: the spline order, the knot vector and the sequence of
6-dimensional coefficients (translation sample, rotation-parameter sample). -/
structure BSplinePoseMinimal where
  spline_order_ : Nat
  knots_ : List real_t
  coefficients_ : List Vector6

namespace BSplinePoseMinimal

/-- The `i`-th knot. -/
def knot (bs : BSplinePoseMinimal) (i : Nat) : real_t := bs.knots_.getD i 0

/-- The `i`-th coefficient. -/
def coefficient (bs : BSplinePoseMinimal) (i : Nat) : Vector6 := bs.coefficients_.getD i 0

/-- Modelled from the spec: the data-model invariants of a spline that has been
initialised: order at least 2, one window of coefficients at least, knot vector
of length `#coefficients + order`, knots increasing without duplicates. -/
def WellFormed (bs : BSplinePoseMinimal) : Prop :=
  2 ≤ bs.spline_order_ ∧ bs.spline_order_ ≤ bs.coefficients_.length ∧
  bs.knots_.length = bs.coefficients_.length + bs.spline_order_ ∧
  ∀ i, i + 1 < bs.knots_.length → bs.knot i < bs.knot (i + 1)

/-- Modelled from the spec: `t_min()`, the start of the valid domain; the first
`k - 1` knots are margin. -/
def t_min (bs : BSplinePoseMinimal) : real_t := bs.knot (bs.spline_order_ - 1)

/-- Modelled from the spec: `t_max()`, the end of the valid domain, which
excludes the margin of the final `k - 1` knots. -/
def t_max (bs : BSplinePoseMinimal) : real_t := bs.knot (bs.knots_.length - bs.spline_order_)

/-- The number of knot spans inside the valid domain. -/
def numValidTimeSegments (bs : BSplinePoseMinimal) : Nat :=
  bs.knots_.length + 1 - 2 * bs.spline_order_

/-- The largest index `j` in `lo .. lo + m` with `kn j ≤ t` (`lo` when there is
none). -/
def findSegment (kn : Nat → real_t) (t : real_t) (lo : Nat) : Nat → Nat
  | 0 => lo
  | m + 1 => if kn (lo + m + 1) ≤ t then lo + m + 1 else findSegment kn t lo m

/-- Modelled from the spec: the index `j` of the knot span `[knot j, knot (j+1))`
of the valid domain that covers `t`. -/
def segmentIndex (bs : BSplinePoseMinimal) (t : real_t) : Nat :=
  findSegment bs.knot t (bs.spline_order_ - 1) (bs.numValidTimeSegments - 1)

/-- Modelled from the spec: the index of the first coefficient of the local
coefficient window covering `t`; the window is `windowStart .. windowStart + k - 1`. -/
def windowStart (bs : BSplinePoseMinimal) (t : real_t) : Nat :=
  bs.segmentIndex t + 1 - bs.spline_order_

/-- Modelled from the spec: the Cox–de Boor recursion, on the knot span `j`.
`basisD kn j p d i t` is the `d`-th time derivative at `t` of the basis function
of degree `p` (order `p + 1`) that starts at knot `i`; on the span `j` the
indicator of the degree-0 function `i` is `1` exactly for `i = j`. -/
def basisD (kn : Nat → real_t) (j : Nat) : Nat → Nat → Nat → real_t → real_t
  | 0, 0, i, _ => if i = j then 1 else 0
  | 0, _ + 1, _, _ => 0
  | p + 1, 0, i, t =>
      (t - kn i) / (kn (i + p + 1) - kn i) * basisD kn j p 0 i t
        + (kn (i + p + 2) - t) / (kn (i + p + 2) - kn (i + 1)) * basisD kn j p 0 (i + 1) t
  | p + 1, d + 1, i, t =>
      ((p : real_t) + 1) *
        (basisD kn j p d i t / (kn (i + p + 1) - kn i)
          - basisD kn j p d (i + 1) t / (kn (i + p + 2) - kn (i + 1)))

/-- Modelled from the spec: the `m`-th entry of the basis-weight vector (length
`k`) of derivative order `d` at `t`. -/
def basisWeight (bs : BSplinePoseMinimal) (t : real_t) (d m : Nat) : real_t :=
  basisD bs.knot (bs.segmentIndex t) (bs.spline_order_ - 1) d (bs.windowStart t + m) t

/-- The basis-derivative-weighted sum over the local coefficient window. -/
def curveValue (bs : BSplinePoseMinimal) (t : real_t) (d : Nat) : Vector6 :=
  fun r => ∑ m in Finset.range bs.spline_order_,
    bs.basisWeight t d m * bs.coefficient (bs.windowStart t + m) r

/-- Modelled from the spec: `evalD(t, d)`, the `d`-th time derivative of the
curve value at `t`. A time outside `[t_min, t_max)` fails with `OutOfRange`, a
derivative order `d ≥ k` fails with `InvalidArgument`. -/
def evalD (bs : BSplinePoseMinimal) (t : real_t) (d : Nat) : Except SplineError Vector6 :=
  if t < bs.t_min ∨ bs.t_max ≤ t then .error .OutOfRange
  else if bs.spline_order_ ≤ d then .error .InvalidArgument
  else .ok (bs.curveValue t d)

/-- A list of 6-vectors, concatenated into one vector. -/
def concatCoefficients (cs : List Vector6) : VectorX :=
  cs.flatMap fun v => List.ofFn v

/-- The `k` consecutive 6-vectors held by a vector of length `6k`. -/
def splitCoefficients (k : Nat) (c : VectorX) : List Vector6 :=
  (List.range k).map fun m => fun r => c.getD (6 * m + r.val) 0

/-- Modelled from the spec: `localCoefficientVector(t)`, the `k` coefficients of
the window covering `t`, concatenated into one vector of length `6k`. -/
def localCoefficientVector (bs : BSplinePoseMinimal) (t : real_t) : Except SplineError VectorX :=
  if t < bs.t_min ∨ bs.t_max ≤ t then .error .OutOfRange
  else .ok (concatCoefficients ((bs.coefficients_.drop (bs.windowStart t)).take bs.spline_order_))

/-- Modelled from the spec: `setLocalCoefficientVector(t, c)`, which rewrites
exactly the `k` coefficients of the window covering `t`; a vector of the wrong
length is an invalid argument. -/
def setLocalCoefficientVector (bs : BSplinePoseMinimal) (t : real_t) (c : VectorX) :
    Except SplineError BSplinePoseMinimal :=
  if t < bs.t_min ∨ bs.t_max ≤ t then .error .OutOfRange
  else if c.length ≠ 6 * bs.spline_order_ then .error .InvalidArgument
  else .ok { bs with
    coefficients_ := bs.coefficients_.take (bs.windowStart t)
      ++ splitCoefficients bs.spline_order_ c
      ++ bs.coefficients_.drop (bs.windowStart t + bs.spline_order_) }

/-! ### Poses and kinematics -/

/-- The translation sample of a curve value (`p.head<3>()`). -/
def translationPart (p : Vector6) : Vector3 := ![p 0, p 1, p 2]

/-- The rotation-parameter sample of a curve value (`p.tail<3>()`). -/
def rotationPart (p : Vector6) : Vector3 := ![p 3, p 4, p 5]

/-- Modelled from the spec: `curveValueToTransformation(p)`; the translation is
copied from the first three components, the rotation block is `exp` of the last
three. -/
def curveValueToTransformation (R : RotationParameterization) (p : Vector6) : Matrix4 :=
  let C := R.parametersToRotationMatrix (rotationPart p)
  !![C 0 0, C 0 1, C 0 2, p 0;
     C 1 0, C 1 1, C 1 2, p 1;
     C 2 0, C 2 1, C 2 2, p 2;
     0, 0, 0, 1]

/-- The rotation block of a pose (`T.topLeftCorner<3,3>()`). -/
def rotationBlock (T : Matrix4) : Matrix3 :=
  !![T 0 0, T 0 1, T 0 2;
     T 1 0, T 1 1, T 1 2;
     T 2 0, T 2 1, T 2 2]

/-- Modelled from the spec: `transformationToCurveValue(T)`; translation
extraction and `log` of the rotation block. -/
def transformationToCurveValue (R : RotationParameterization) (T : Matrix4) : Vector6 :=
  let r := R.rotationMatrixToParameters (rotationBlock T)
  ![T 0 3, T 1 3, T 2 3, r 0, r 1, r 2]

/-- The rigid inverse of a pose: transposed rotation block, negated rotated
translation. -/
def rigidInverse (T : Matrix4) : Matrix4 :=
  let C := rotationBlock T
  let p : Vector3 := ![T 0 3, T 1 3, T 2 3]
  let q : Vector3 := Matrix.mulVec C.transpose p
  !![C 0 0, C 1 0, C 2 0, -q 0;
     C 0 1, C 1 1, C 2 1, -q 1;
     C 0 2, C 1 2, C 2 2, -q 2;
     0, 0, 0, 1]

/-- Modelled from the spec: `transformation(t)`, which is
`curveValueToTransformation(evalD(t, 0))`. -/
def transformation (R : RotationParameterization) (bs : BSplinePoseMinimal) (t : real_t) :
    Except SplineError Matrix4 :=
  (bs.evalD t 0).map (curveValueToTransformation R)

/-- Modelled from the spec: `inverseTransformation(t)`, the rigid inverse of the
same pose. -/
def inverseTransformation (R : RotationParameterization) (bs : BSplinePoseMinimal)
    (t : real_t) : Except SplineError Matrix4 :=
  (transformation R bs t).map rigidInverse

/-- The Jacobian of the translation part of `evalD(t, d)` with respect to the
local coefficient vector: the block of coefficient `m` is the basis weight `m`
times the `3 x 6` selector of the translation components. -/
def translationJacobian (bs : BSplinePoseMinimal) (t : real_t) (d : Nat) : MatrixX where
  rows := 3
  cols := 6 * bs.spline_order_
  coeff := fun i j => if j % 6 = i then bs.basisWeight t d (j / 6) else 0

/-- Modelled from the spec: `linearAccelerationAndJacobian(t, &J, NULL)`; the
second time derivative of the translation component, and its Jacobian with
respect to the local coefficient window from the basis second-derivative
weights. -/
def linearAccelerationAndJacobian (bs : BSplinePoseMinimal) (t : real_t) :
    Except SplineError (Vector3 × MatrixX) :=
  (bs.evalD t 2).map fun a => (translationPart a, translationJacobian bs t 2)

/-- Modelled from the spec: `angularVelocity(t)`, the velocity map of the
rotation parameterization at the current rotation parameter, applied to the
parameter rate. -/
def angularVelocity (R : RotationParameterization) (bs : BSplinePoseMinimal) (t : real_t) :
    Except SplineError Vector3 := do
  let p ← bs.evalD t 0
  let v ← bs.evalD t 1
  pure (Matrix.mulVec (R.parametersToSMatrix (rotationPart p)) (rotationPart v))

/-- Modelled from the spec: `angularVelocityBodyFrame(t)`, the angular velocity
rotated into the body frame by the inverse of the current rotation. -/
def angularVelocityBodyFrame (R : RotationParameterization) (bs : BSplinePoseMinimal)
    (t : real_t) : Except SplineError Vector3 := do
  let p ← bs.evalD t 0
  let w ← angularVelocity R bs t
  pure (Matrix.mulVec (R.parametersToRotationMatrix (rotationPart p)).transpose w)

/-! ### Construction -/

/-- Modelled from the spec: `initPoseSpline(t0, t1, A, B)`. The spec fixes the
precondition `t1 > t0`, the resulting domain `[t0, t1)`, the conversion of both
boundary poses to curve values, and that `k` spaced coefficients are seeded so
that the curve meets the boundary poses. The embedding takes the minimal uniform
configuration: `2k` knots of spacing `t1 - t0`, with `t0` at index `k - 1`, and
`k` coefficients on the straight line through the two curve values, coefficient
`i` at parameter `i + 1 - k / 2` (the Greville abscissa of basis function `i`). -/
def initPoseSpline (R : RotationParameterization) (bs : BSplinePoseMinimal)
    (t0 t1 : real_t) (A B : Matrix4) : Except SplineError BSplinePoseMinimal :=
  if t0 < t1 then
    let k := bs.spline_order_
    let p0 := transformationToCurveValue R A
    let p1 := transformationToCurveValue R B
    .ok { spline_order_ := k
          knots_ := (List.range (2 * k)).map fun (i : Nat) =>
            t0 + ((i : real_t) - ((k : real_t) - 1)) * (t1 - t0)
          coefficients_ := (List.range k).map fun (i : Nat) =>
            p0 + ((i : real_t) + 1 - (k : real_t) / 2) • (p1 - p0) }
  else .error .InvalidArgument

/-- Modelled from the spec: `addPoseSegment(t, pose)`. The spec fixes the
precondition `t > t_max()`, that the knot vector and the coefficient sequence
each grow by one entry, that the new coefficient is derived from `pose`, and
that `t_max()` becomes `t`. The embedding keeps the knots up to the old
`t_max()`, makes `t` the next knot, re-spaces the `k - 1` margin knots behind it
with the spacing `t - t_max()` (so that the knot vector stays increasing), and
appends the curve value of `pose` as the new coefficient. For an order above 2
no choice of the knots gives both `t_max() = t` and an unchanged curve on the
prior domain (`no_extension_keeps_trajectory`). -/
def addPoseSegment (R : RotationParameterization) (bs : BSplinePoseMinimal)
    (t : real_t) (pose : Matrix4) : Except SplineError BSplinePoseMinimal :=
  if bs.t_max < t then
    let k := bs.spline_order_
    let n := bs.knots_.length - k
    .ok { spline_order_ := k
          knots_ := bs.knots_.take (n + 1) ++
            (List.range k).map fun (i : Nat) => t + (i : real_t) * (t - bs.t_max)
          coefficients_ := bs.coefficients_ ++ [transformationToCurveValue R pose] }
  else .error .OutOfRange

end BSplinePoseMinimal

/-! ## The numerical-Jacobian wrapper
(`FixedTimeBSplinePoseMinimal`, `ze_splines/test/test_bspline_pose_minimal.cpp`) -/

/-- A computation on the spline `*bs_` that either returns a value or throws;
in both cases it leaves a spline state behind. -/
def SplineM (α : Type) : Type :=
  BSplinePoseMinimal → Except SplineError α × BSplinePoseMinimal

/-- Returning a value leaves the spline alone. -/
def SplineM.pure {α : Type} (a : α) : SplineM α := fun bs => (.ok a, bs)

/-- Sequencing: an exception skips the rest and keeps the state reached. -/
def SplineM.bind {α β : Type} (m : SplineM α) (f : α → SplineM β) : SplineM β :=
  fun bs => match m bs with
    | (.ok a, bs1) => f a bs1
    | (.error e, bs1) => (.error e, bs1)

instance : Monad SplineM where
  pure := SplineM.pure
  bind := SplineM.bind

/-- A `const` member function of the spline: it reads the state. -/
def SplineM.read {α : Type} (f : BSplinePoseMinimal → Except SplineError α) : SplineM α :=
  fun bs => (f bs, bs)

/-- A mutating member function of the spline; when it throws, the spline is
as before the call. -/
def SplineM.modify (f : BSplinePoseMinimal → Except SplineError BSplinePoseMinimal) :
    SplineM Unit :=
  fun bs => match f bs with
    | .ok bs1 => (.ok (), bs1)
    | .error e => (.error e, bs)

/-- The data members of `FixedTimeBSplinePoseMinimal` besides the spline
pointer `bs_`: time of evaluation, derivative order, homogeneous vector. -/
structure FixedTimeBSplinePoseMinimal where
  t_ : real_t
  d_ : Nat
  v_ : Vector4

namespace FixedTimeBSplinePoseMinimal

/-- Get the vector of active coefficients at the evaluation time. -/
def coefficientVector (f : FixedTimeBSplinePoseMinimal) : SplineM VectorX :=
  SplineM.read fun bs => bs.localCoefficientVector f.t_

/-- Set the coefficient vector at the evaluation time. -/
def setCoefficientVector (f : FixedTimeBSplinePoseMinimal) (c : VectorX) : SplineM Unit :=
  SplineM.modify fun bs => bs.setLocalCoefficientVector f.t_ c

/-- Evaluate the splines given a local coefficient vector. -/
def eval (f : FixedTimeBSplinePoseMinimal) (c : VectorX) : SplineM VectorX := do
  let old_c ← f.coefficientVector
  f.setCoefficientVector c
  let value ← SplineM.read fun bs => bs.evalD f.t_ f.d_
  f.setCoefficientVector old_c
  return List.ofFn value

/-- Evaluate the transformation given a local coefficient vector; strictly it is
`T * v` that is evaluated and not `T` itself. -/
def transformation (R : RotationParameterization) (f : FixedTimeBSplinePoseMinimal)
    (c : VectorX) : SplineM Vector4 := do
  let old_c ← f.coefficientVector
  f.setCoefficientVector c
  let value ← SplineM.read fun bs => BSplinePoseMinimal.transformation R bs f.t_
  f.setCoefficientVector old_c
  return Matrix.mulVec value f.v_

/-- Evaluate the inverse transformation given a local coefficient vector. -/
def inverseTransformation (R : RotationParameterization) (f : FixedTimeBSplinePoseMinimal)
    (c : VectorX) : SplineM Vector4 := do
  let old_c ← f.coefficientVector
  f.setCoefficientVector c
  let value ← SplineM.read fun bs => BSplinePoseMinimal.inverseTransformation R bs f.t_
  f.setCoefficientVector old_c
  return Matrix.mulVec value f.v_

/-- The linear acceleration given a local coefficient vector. -/
def linearAcceleration (f : FixedTimeBSplinePoseMinimal) (c : VectorX) : SplineM Vector3 := do
  let old_c ← f.coefficientVector
  f.setCoefficientVector c
  let value ← SplineM.read fun bs => (bs.linearAccelerationAndJacobian f.t_).map Prod.fst
  f.setCoefficientVector old_c
  return value

/-- The angular velocity given a local coefficient vector. -/
def angularVelocity (R : RotationParameterization) (f : FixedTimeBSplinePoseMinimal)
    (c : VectorX) : SplineM Vector3 := do
  let old_c ← f.coefficientVector
  f.setCoefficientVector c
  let value ← SplineM.read fun bs => BSplinePoseMinimal.angularVelocity R bs f.t_
  f.setCoefficientVector old_c
  return value

/-- The body-frame angular velocity given a local coefficient vector. -/
def angularVelocityBodyFrame (R : RotationParameterization) (f : FixedTimeBSplinePoseMinimal)
    (c : VectorX) : SplineM Vector3 := do
  let old_c ← f.coefficientVector
  f.setCoefficientVector c
  let value ← SplineM.read fun bs => BSplinePoseMinimal.angularVelocityBodyFrame R bs f.t_
  f.setCoefficientVector old_c
  return value

end FixedTimeBSplinePoseMinimal

/-! ## A rational rotation parameterization -/

/-- Skew symmetric matrix (`ze/common/matrix.h`). -/
def skewSymmetric (w : Vector3) : Matrix3 :=
  !![0, -w 2, w 1;
     w 2, 0, -w 0;
     -w 1, w 0, 0]

/-- The rotation matrix of a Gibbs vector `g` (Cayley transform):
`((1 - |g|²) I + 2 g gᵀ + 2 [g]×) / (1 + |g|²)`. -/
def gibbsToRotationMatrix (g : Vector3) : Matrix3 :=
  let s : real_t := 1 + (g 0 ^ 2 + g 1 ^ 2 + g 2 ^ 2)
  !![(1 + g 0 ^ 2 - g 1 ^ 2 - g 2 ^ 2) / s, 2 * (g 0 * g 1 - g 2) / s, 2 * (g 0 * g 2 + g 1) / s;
     2 * (g 0 * g 1 + g 2) / s, (1 - g 0 ^ 2 + g 1 ^ 2 - g 2 ^ 2) / s, 2 * (g 1 * g 2 - g 0) / s;
     2 * (g 0 * g 2 - g 1) / s, 2 * (g 1 * g 2 + g 0) / s, (1 - g 0 ^ 2 - g 1 ^ 2 + g 2 ^ 2) / s]

/-- The Gibbs vector of a rotation matrix: the vector of the skew part, over
`1 + trace`. -/
def rotationMatrixToGibbs (C : Matrix3) : Vector3 :=
  let d : real_t := 1 + (C 0 0 + C 1 1 + C 2 2)
  ![(C 2 1 - C 1 2) / d, (C 0 2 - C 2 0) / d, (C 1 0 - C 0 1) / d]

/-- A rotation parameterization with rational exponential and logarithmic maps,
on which the spline code can be evaluated exactly: rotations are parameterized
by their Gibbs vector. Its velocity map is `2 (I + [g]×) / (1 + |g|²)`. -/
def gibbsRotation : RotationParameterization where
  parametersToRotationMatrix := gibbsToRotationMatrix
  rotationMatrixToParameters := rotationMatrixToGibbs
  parametersToSMatrix := fun g =>
    (2 / (1 + (g 0 ^ 2 + g 1 ^ 2 + g 2 ^ 2))) • (1 + skewSymmetric g)
  domain := fun _ => True
  log_exp := by
    intro g _
    have hs : (1 + (g 0 ^ 2 + g 1 ^ 2 + g 2 ^ 2) : real_t) ≠ 0 := by positivity
    funext i
    fin_cases i <;> simp [rotationMatrixToGibbs, gibbsToRotationMatrix] <;> field_simp <;> ring

/-! ## Reference behaviour and sample splines -/

/-- The checkpoint behaviour of the wrapper methods, from the spec's words: save
the window covering `t_`, overwrite it with `c`, evaluate `q`, restore. When the
window cannot be overwritten (time outside the domain, `c` of the wrong length)
the error is reported and the spline is untouched; when the evaluation succeeds
its value is returned and the spline is as before the call; when the evaluation
throws, the error propagates and the window still holds `c`. -/
def FixedTimeBSplinePoseMinimal.checkpoint {α : Type} (f : FixedTimeBSplinePoseMinimal)
    (q : BSplinePoseMinimal → Except SplineError α) (c : VectorX) : SplineM α :=
  fun bs => match bs.setLocalCoefficientVector f.t_ c with
    | .error e => (.error e, bs)
    | .ok bs1 => match q bs1 with
      | .ok v => (.ok v, bs)
      | .error e => (.error e, bs1)

/-- A spline of order 2 with the single segment `[0, 1)`: the straight line
from the curve value `0` to the curve value `(1, 1, 1, 1, 1, 1)`. -/
def lineSpline : BSplinePoseMinimal :=
  ⟨2, [-1, 0, 1, 2], [0, fun _ => 1]⟩

/-- The parameter at which a line through the coefficients is reproduced by
the basis functions of degree `p` on the knot span `j`, for knots `a + i * h`:
coefficients `α + β * i` give the curve value `α + β * linearParameter a h j p t`. -/
def BSplinePoseMinimal.linearParameter (a h : real_t) (j p : Nat) (t : real_t) : real_t :=
  if p = 0 then (j : real_t) else (t - a) / h - ((p : real_t) + 1) / 2

/-- The polynomial piece of the curve on the knot span that covers `t`, as a
function of the time `τ`: `curveValue t d` is `spanCurve t d t`, and
`curveValue τ d` is `spanCurve t d τ` for every `τ` of the same knot span. -/
def BSplinePoseMinimal.spanCurve (bs : BSplinePoseMinimal) (t : real_t) (d : Nat)
    (τ : real_t) : Vector6 :=
  fun r => ∑ m in Finset.range bs.spline_order_,
    BSplinePoseMinimal.basisD bs.knot (bs.segmentIndex t) (bs.spline_order_ - 1) d
        (bs.windowStart t + m) τ
      * bs.coefficient (bs.windowStart t + m) r

/-! ## The plotter (`ze/pangolin/pangolin.hpp`, `pangolin.cpp`) -/

/-- The state of a `PangolinPlotter` that its visualization thread and its
destructor share: the flag `stop_requested_`, which is `false` at construction.
Every access goes through `stop_mutex_`, so reads and writes are atomic. -/
structure PangolinPlotter where
  stop_requested_ : Bool := false

namespace PangolinPlotter

/-- `PangolinPlotter::requestStop`: sets the flag. -/
def requestStop (p : PangolinPlotter) : PangolinPlotter :=
  { p with stop_requested_ := true }

/-- `PangolinPlotter::isStopRequested`: reads the flag. -/
def isStopRequested (p : PangolinPlotter) : Bool :=
  p.stop_requested_

/-- The inner `while(!isStopRequested())` of `PangolinPlotter::loop`, which
clears the buffers, finishes a frame and sleeps for 40 ms in each pass; the loop
thread does not write the flag. It is run for at most `fuel` evaluations of its
condition; the result is the number of frames finished, `none` when the fuel
does not suffice. -/
def renderLoop (p : PangolinPlotter) : Nat → Option Nat
  | 0 => none
  | fuel + 1 =>
    if !p.isStopRequested then (renderLoop p fuel).map (· + 1)
    else some 0

/-- `PangolinPlotter::loop`, after the window and the plotter are set up:
`while(!pangolin::ShouldQuit())` with the inner `while(!isStopRequested())` as
its body. `shouldQuit n` is what the `n`-th call of `pangolin::ShouldQuit()`
reports, and `n` is the number of calls made so far. The loop is run for at most
`fuel` evaluations of the outer condition; the result is the number of calls of
`pangolin::ShouldQuit()` that reported `false` before it returned, `none` when
the fuel does not suffice. -/
def loop (shouldQuit : Nat → Bool) (p : PangolinPlotter) : Nat → Nat → Option Nat
  | 0, _ => none
  | fuel + 1, n =>
    if !shouldQuit n then
      match p.renderLoop fuel with
      | none => none
      | some _ => loop shouldQuit p fuel (n + 1)
    else some n

/-- `PangolinPlotter::~PangolinPlotter`: `requestStop()`, then `thread_->join()`,
which completes when the loop of the thread returns. The thread has made `n`
calls of `pangolin::ShouldQuit()` when the flag is set. The result is the
plotter after the join, `none` when the loop does not return within `fuel`. -/
def destructor (shouldQuit : Nat → Bool) (p : PangolinPlotter) (fuel n : Nat) :
    Option PangolinPlotter :=
  let p1 := p.requestStop
  (p1.loop shouldQuit fuel n).map fun _ => p1

end PangolinPlotter

/-! ## Theorems -/

/-! ### Camera -/

namespace BSplinePoseMinimal

theorem rotationBlock_curveValueToTransformation (R : RotationParameterization) (p : Vector6) :
    rotationBlock (curveValueToTransformation R p)
      = R.parametersToRotationMatrix (rotationPart p) := by
  ext i j
  fin_cases i <;> fin_cases j <;> simp [rotationBlock, curveValueToTransformation]

theorem curveValue_roundtrip_aux (R : RotationParameterization) (p : Vector6)
    (hp : R.domain (rotationPart p)) :
    transformationToCurveValue R (curveValueToTransformation R p) = p := by
  have hlog := R.log_exp (rotationPart p) hp
  unfold transformationToCurveValue
  rw [rotationBlock_curveValueToTransformation, hlog]
  funext i
  fin_cases i <;> rfl

/-- C2: for every curve value `p` whose rotation parameter lies in the domain of
the rotation parameterization, converting `p` to a 4x4 pose and back returns
`p`. -/
theorem transformationToCurveValue_curveValueToTransformation
    (R : RotationParameterization) (p : Vector6) (hp : R.domain (rotationPart p)) :
    transformationToCurveValue R (curveValueToTransformation R p) = p :=
  curveValue_roundtrip_aux R p hp

/-- C2 at the curve value `(1, 2, 3, 1/2, 0, -1)` of the Gibbs-vector
parameterization. -/
theorem transformationToCurveValue_curveValueToTransformation_witness :
    gibbsRotation.domain (rotationPart ![1, 2, 3, 1/2, 0, -1]) ∧
    transformationToCurveValue gibbsRotation
        (curveValueToTransformation gibbsRotation ![1, 2, 3, 1/2, 0, -1])
      = ![1, 2, 3, 1/2, 0, -1] :=
  ⟨trivial, transformationToCurveValue_curveValueToTransformation gibbsRotation
    ![1, 2, 3, 1/2, 0, -1] trivial⟩

end BSplinePoseMinimal

/-! ### The local coefficient window -/

namespace BSplinePoseMinimal

theorem findSegment_ge (kn : Nat → real_t) (t : real_t) (lo m : Nat) :
    lo ≤ findSegment kn t lo m := by
  induction m with
  | zero => simp [findSegment]
  | succ m ih =>
    unfold findSegment
    split
    · omega
    · exact ih

theorem findSegment_le (kn : Nat → real_t) (t : real_t) (lo m : Nat) :
    findSegment kn t lo m ≤ lo + m := by
  induction m with
  | zero => simp [findSegment]
  | succ m ih =>
    unfold findSegment
    split
    · omega
    · omega

theorem segmentIndex_ge (bs : BSplinePoseMinimal) (t : real_t) :
    bs.spline_order_ - 1 ≤ bs.segmentIndex t :=
  findSegment_ge _ _ _ _

theorem segmentIndex_lt (bs : BSplinePoseMinimal) (t : real_t) (hwf : bs.WellFormed) :
    bs.segmentIndex t < bs.coefficients_.length := by
  obtain ⟨h2, hk, hlen, -⟩ := hwf
  have := findSegment_le bs.knot t (bs.spline_order_ - 1) (bs.numValidTimeSegments - 1)
  unfold segmentIndex
  unfold numValidTimeSegments at this ⊢
  omega

theorem windowStart_add_order (bs : BSplinePoseMinimal) (t : real_t) (hwf : bs.WellFormed) :
    bs.windowStart t + bs.spline_order_ = bs.segmentIndex t + 1 := by
  have := bs.segmentIndex_ge t
  have := hwf.1
  unfold windowStart
  omega

theorem windowStart_add_order_le (bs : BSplinePoseMinimal) (t : real_t) (hwf : bs.WellFormed) :
    bs.windowStart t + bs.spline_order_ ≤ bs.coefficients_.length := by
  have := bs.windowStart_add_order t hwf
  have := bs.segmentIndex_lt t hwf
  omega

theorem length_splitCoefficients (k : Nat) (c : VectorX) :
    (splitCoefficients k c).length = k := by
  simp [splitCoefficients]

theorem getD_splitCoefficients (k : Nat) (c : VectorX) (m : Nat) (hm : m < k) (r : Fin 6) :
    (splitCoefficients k c).getD m 0 r = c.getD (6 * m + r.val) 0 := by
  simp [splitCoefficients, List.getD_eq_getElem?_getD, List.getElem?_map,
    List.getElem?_range hm]

theorem splitCoefficients_succ (k : Nat) (c : VectorX) :
    splitCoefficients (k + 1) c
      = (fun r : Fin 6 => c.getD r.val 0) :: splitCoefficients k (c.drop 6) := by
  unfold splitCoefficients
  rw [List.range_succ_eq_map]
  simp only [List.map_cons, List.map_map]
  congr 1
  · funext r
    simp
  · apply List.map_congr_left
    intro m _
    funext r
    simp [List.getD_eq_getElem?_getD, List.getElem?_drop, Nat.mul_succ]
    congr 2
    omega

theorem splitCoefficients_concatCoefficients (w : List Vector6) :
    splitCoefficients w.length (concatCoefficients w) = w := by
  induction w with
  | nil => simp [splitCoefficients]
  | cons v w ih =>
    have hdrop : (concatCoefficients (v :: w)).drop 6 = concatCoefficients w := by
      simp [concatCoefficients, List.flatMap_cons]
    rw [List.length_cons, splitCoefficients_succ, hdrop, ih]
    congr 1
    funext r
    have hlen : r.val < (List.ofFn v).length := by simp
    simp only [concatCoefficients, List.flatMap_cons, List.getD_eq_getElem?_getD]
    rw [List.getElem?_append_left hlen, List.getElem?_ofFn]
    simp [List.ofFnNthVal]

end BSplinePoseMinimal

namespace BSplinePoseMinimal

theorem length_concatCoefficients (w : List Vector6) :
    (concatCoefficients w).length = 6 * w.length := by
  induction w with
  | nil => simp [concatCoefficients]
  | cons v w ih =>
    simp only [concatCoefficients, List.flatMap_cons, List.length_append, List.length_ofFn,
      List.length_cons] at ih ⊢
    omega

/-- The spline with the window covering `t` overwritten by `c`. -/
theorem setLocalCoefficientVector_eq_ok (bs : BSplinePoseMinimal) (t : real_t) (c : VectorX)
    (ht : ¬ (t < bs.t_min ∨ bs.t_max ≤ t)) (hc : c.length = 6 * bs.spline_order_) :
    bs.setLocalCoefficientVector t c = .ok { bs with
      coefficients_ := bs.coefficients_.take (bs.windowStart t)
        ++ splitCoefficients bs.spline_order_ c
        ++ bs.coefficients_.drop (bs.windowStart t + bs.spline_order_) } := by
  simp [setLocalCoefficientVector, ht, hc]

theorem setLocalCoefficientVector_ok_iff (bs bs1 : BSplinePoseMinimal) (t : real_t)
    (c : VectorX) :
    bs.setLocalCoefficientVector t c = .ok bs1 ↔
      ¬ (t < bs.t_min ∨ bs.t_max ≤ t) ∧ c.length = 6 * bs.spline_order_ ∧
      bs1 = { bs with
        coefficients_ := bs.coefficients_.take (bs.windowStart t)
          ++ splitCoefficients bs.spline_order_ c
          ++ bs.coefficients_.drop (bs.windowStart t + bs.spline_order_) } := by
  unfold setLocalCoefficientVector
  by_cases ht : t < bs.t_min ∨ bs.t_max ≤ t
  · simp [ht]
  · by_cases hc : c.length = 6 * bs.spline_order_
    · simp only [ht, hc, if_false, ne_eq, not_true_eq_false, not_false_eq_true, true_and]
      constructor
      · intro h
        injection h with h
        exact h.symm
      · intro h
        rw [h]
    · simp [ht, hc]

/-- Everything that is computed from the order and the knots alone. -/
theorem knot_congr (bs bs1 : BSplinePoseMinimal) (hk : bs1.knots_ = bs.knots_) :
    bs1.knot = bs.knot := by
  funext i
  simp [knot, hk]

theorem t_min_congr (bs bs1 : BSplinePoseMinimal) (ho : bs1.spline_order_ = bs.spline_order_)
    (hk : bs1.knots_ = bs.knots_) : bs1.t_min = bs.t_min := by
  simp [t_min, knot_congr bs bs1 hk, ho]

theorem t_max_congr (bs bs1 : BSplinePoseMinimal) (ho : bs1.spline_order_ = bs.spline_order_)
    (hk : bs1.knots_ = bs.knots_) : bs1.t_max = bs.t_max := by
  simp [t_max, knot_congr bs bs1 hk, ho, hk]

theorem segmentIndex_congr (bs bs1 : BSplinePoseMinimal)
    (ho : bs1.spline_order_ = bs.spline_order_) (hk : bs1.knots_ = bs.knots_) (t : real_t) :
    bs1.segmentIndex t = bs.segmentIndex t := by
  simp [segmentIndex, numValidTimeSegments, knot_congr bs bs1 hk, ho, hk]

theorem windowStart_congr (bs bs1 : BSplinePoseMinimal)
    (ho : bs1.spline_order_ = bs.spline_order_) (hk : bs1.knots_ = bs.knots_) (t : real_t) :
    bs1.windowStart t = bs.windowStart t := by
  simp [windowStart, segmentIndex_congr bs bs1 ho hk, ho]

theorem basisWeight_congr (bs bs1 : BSplinePoseMinimal)
    (ho : bs1.spline_order_ = bs.spline_order_) (hk : bs1.knots_ = bs.knots_) (t : real_t)
    (d m : Nat) : bs1.basisWeight t d m = bs.basisWeight t d m := by
  simp [basisWeight, segmentIndex_congr bs bs1 ho hk, windowStart_congr bs bs1 ho hk,
    knot_congr bs bs1 hk, ho]

theorem take_append_window_append_drop {α : Type} (co X : List α) (b k : Nat)
    (hX : X.length = k) (hb : b + k ≤ co.length) :
    (co.take b ++ X ++ co.drop (b + k)).take b ++ (co.drop b).take k
      ++ (co.take b ++ X ++ co.drop (b + k)).drop (b + k) = co := by
  have htake : (co.take b).length = b := by
    simp [List.length_take]
    omega
  have h1 : (co.take b ++ X ++ co.drop (b + k)).take b = co.take b := by
    rw [List.append_assoc, List.take_append_of_le_length (by omega)]
    rw [List.take_of_length_le (by omega)]
  have h2 : (co.take b ++ X ++ co.drop (b + k)).drop (b + k) = co.drop (b + k) := by
    have hl : (co.take b ++ X).length = b + k := by
      simp [hX, htake]
    rw [List.drop_append_of_le_length (by omega), List.drop_of_length_le (by omega)]
    simp
  rw [h1, h2, List.append_assoc, ← List.drop_drop, List.take_append_drop,
    List.take_append_drop]

/-- Overwriting the window with `c` and then with the saved window gives the
spline back. -/
theorem setLocalCoefficientVector_restore (bs bs1 : BSplinePoseMinimal) (t : real_t)
    (c old_c : VectorX) (hwf : bs.WellFormed)
    (hold : bs.localCoefficientVector t = .ok old_c)
    (hset : bs.setLocalCoefficientVector t c = .ok bs1) :
    bs1.setLocalCoefficientVector t old_c = .ok bs := by
  obtain ⟨ht, hc, hbs1⟩ := (setLocalCoefficientVector_ok_iff bs bs1 t c).1 hset
  have hb := bs.windowStart_add_order_le t hwf
  simp only [localCoefficientVector, ht, if_false] at hold
  injection hold with hold
  have ho : bs1.spline_order_ = bs.spline_order_ := by rw [hbs1]
  have hk : bs1.knots_ = bs.knots_ := by rw [hbs1]
  have hwlen : ((bs.coefficients_.drop (bs.windowStart t)).take bs.spline_order_).length
      = bs.spline_order_ := by
    simp [List.length_take, List.length_drop]
    omega
  rw [setLocalCoefficientVector_ok_iff]
  refine ⟨?_, ?_, ?_⟩
  · rw [t_min_congr bs bs1 ho hk, t_max_congr bs bs1 ho hk]
    exact ht
  · rw [← hold, length_concatCoefficients, hwlen, ho]
  · rw [windowStart_congr bs bs1 ho hk, ho, ← hold]
    have hsplit := splitCoefficients_concatCoefficients
      ((bs.coefficients_.drop (bs.windowStart t)).take bs.spline_order_)
    rw [hwlen] at hsplit
    rw [hsplit]
    have hco : bs1.coefficients_ = bs.coefficients_.take (bs.windowStart t)
        ++ splitCoefficients bs.spline_order_ c
        ++ bs.coefficients_.drop (bs.windowStart t + bs.spline_order_) := by rw [hbs1]
    have hlist := take_append_window_append_drop bs.coefficients_
      (splitCoefficients bs.spline_order_ c) (bs.windowStart t) bs.spline_order_
      (length_splitCoefficients _ _) hb
    rw [← hco] at hlist
    cases bs
    cases bs1
    simp only at ho hk hlist
    subst ho hk
    simp only [mk.injEq, true_and]
    exact hlist.symm

theorem coefficient_setLocalCoefficientVector (bs bs1 : BSplinePoseMinimal) (t : real_t)
    (c : VectorX) (hwf : bs.WellFormed) (hset : bs.setLocalCoefficientVector t c = .ok bs1)
    (m : Nat) (hm : m < bs.spline_order_) (r : Fin 6) :
    bs1.coefficient (bs.windowStart t + m) r = c.getD (6 * m + r.val) 0 := by
  obtain ⟨-, -, hbs1⟩ := (setLocalCoefficientVector_ok_iff bs bs1 t c).1 hset
  have hb := bs.windowStart_add_order_le t hwf
  have htake : (bs.coefficients_.take (bs.windowStart t)).length = bs.windowStart t := by
    simp [List.length_take]
    omega
  have hco : bs1.coefficients_ = bs.coefficients_.take (bs.windowStart t)
      ++ splitCoefficients bs.spline_order_ c
      ++ bs.coefficients_.drop (bs.windowStart t + bs.spline_order_) := by rw [hbs1]
  rw [← getD_splitCoefficients bs.spline_order_ c m hm r]
  unfold coefficient
  rw [hco, List.getD_eq_getElem?_getD, List.getD_eq_getElem?_getD]
  rw [List.getElem?_append_left (by simp [length_splitCoefficients, htake]; omega)]
  rw [List.getElem?_append_right (by omega)]
  simp [htake]

/-- Evaluation after the window covering `t` has been overwritten by `c`: the
basis weights are those of the spline before, the coefficients are read from
`c`. -/
theorem curveValue_setLocalCoefficientVector (bs bs1 : BSplinePoseMinimal) (t : real_t)
    (c : VectorX) (hwf : bs.WellFormed) (hset : bs.setLocalCoefficientVector t c = .ok bs1)
    (d : Nat) (r : Fin 6) :
    bs1.curveValue t d r
      = ∑ m in Finset.range bs.spline_order_, bs.basisWeight t d m * c.getD (6 * m + r.val) 0 := by
  obtain ⟨-, -, hbs1⟩ := (setLocalCoefficientVector_ok_iff bs bs1 t c).1 hset
  have ho : bs1.spline_order_ = bs.spline_order_ := by rw [hbs1]
  have hk : bs1.knots_ = bs.knots_ := by rw [hbs1]
  unfold curveValue
  rw [ho]
  apply Finset.sum_congr rfl
  intro m hm
  rw [basisWeight_congr bs bs1 ho hk, windowStart_congr bs bs1 ho hk,
    coefficient_setLocalCoefficientVector bs bs1 t c hwf hset m (Finset.mem_range.1 hm)]

theorem evalD_setLocalCoefficientVector (bs bs1 : BSplinePoseMinimal) (t : real_t)
    (c : VectorX) (hset : bs.setLocalCoefficientVector t c = .ok bs1) (d : Nat)
    (hd : d < bs.spline_order_) :
    bs1.evalD t d = .ok (bs1.curveValue t d) := by
  obtain ⟨ht, -, hbs1⟩ := (setLocalCoefficientVector_ok_iff bs bs1 t c).1 hset
  have ho : bs1.spline_order_ = bs.spline_order_ := by rw [hbs1]
  have hk : bs1.knots_ = bs.knots_ := by rw [hbs1]
  unfold evalD
  rw [t_min_congr bs bs1 ho hk, t_max_congr bs bs1 ho hk, if_neg ht, ho, if_neg (not_le.mpr hd)]

end BSplinePoseMinimal

namespace BSplinePoseMinimal

/-! ### Derivative orders -/

end BSplinePoseMinimal

/-! ### The checkpoint of the numerical-Jacobian wrapper -/

namespace FixedTimeBSplinePoseMinimal

open BSplinePoseMinimal

theorem localCoefficientVector_of_set (bs bs1 : BSplinePoseMinimal) (t : real_t) (c : VectorX)
    (hset : bs.setLocalCoefficientVector t c = .ok bs1) :
    ∃ old_c, bs.localCoefficientVector t = .ok old_c := by
  obtain ⟨ht, -, -⟩ := (setLocalCoefficientVector_ok_iff bs bs1 t c).1 hset
  exact ⟨_, if_neg ht⟩

theorem localCoefficientVector_of_set_error (bs : BSplinePoseMinimal) (t : real_t)
    (c : VectorX) (e : SplineError) (hset : bs.setLocalCoefficientVector t c = .error e) :
    bs.localCoefficientVector t = .error e ∨ ∃ old_c, bs.localCoefficientVector t = .ok old_c := by
  unfold setLocalCoefficientVector at hset
  by_cases ht : t < bs.t_min ∨ bs.t_max ≤ t
  · left
    rw [if_pos ht] at hset
    injection hset with hset
    unfold localCoefficientVector
    rw [if_pos ht, hset]
  · right
    exact ⟨_, if_neg ht⟩

/-- The common shape of the six wrapper methods. -/
theorem checkpoint_spec {α β : Type} (f : FixedTimeBSplinePoseMinimal)
    (q : BSplinePoseMinimal → Except SplineError α) (g : α → β) (c : VectorX)
    (bs : BSplinePoseMinimal) (hwf : bs.WellFormed) :
    (f.coefficientVector >>= fun old_c =>
      f.setCoefficientVector c >>= fun _ =>
      SplineM.read q >>= fun value =>
      f.setCoefficientVector old_c >>= fun _ =>
      pure (g value)) bs
      = f.checkpoint (fun b => (q b).map g) c bs := by
  unfold checkpoint
  cases hset : bs.setLocalCoefficientVector f.t_ c with
  | error e =>
    rcases localCoefficientVector_of_set_error bs f.t_ c e hset with h | ⟨old_c, h⟩
    · simp [bind, SplineM.bind, coefficientVector, SplineM.read, h]
    · simp [bind, SplineM.bind, coefficientVector, setCoefficientVector, SplineM.read,
        SplineM.modify, h, hset]
  | ok bs1 =>
    obtain ⟨old_c, hold⟩ := localCoefficientVector_of_set bs bs1 f.t_ c hset
    have hrestore := setLocalCoefficientVector_restore bs bs1 f.t_ c old_c hwf hold hset
    cases hq : q bs1 with
    | error e =>
      simp [bind, SplineM.bind, coefficientVector, setCoefficientVector, SplineM.read,
        SplineM.modify, hold, hset, hq, Except.map]
    | ok v =>
      simp [bind, SplineM.bind, coefficientVector, setCoefficientVector, SplineM.read,
        SplineM.modify, hold, hset, hq, hrestore, Except.map, pure, SplineM.pure]

theorem wellFormed_lineSpline : lineSpline.WellFormed := by
  refine ⟨by decide, by decide, by decide, ?_⟩
  intro i hi
  have hi4 : i + 1 < 4 := hi
  have hi3 : i < 3 := by omega
  interval_cases i <;> norm_num [knot, lineSpline]

theorem map_id_eq {α : Type} (q : BSplinePoseMinimal → Except SplineError α) :
    (fun b => (q b).map id) = q := by
  funext b
  cases q b <;> rfl

theorem linearAcceleration_eq_checkpoint (f : FixedTimeBSplinePoseMinimal) (c : VectorX)
    (bs : BSplinePoseMinimal) (hwf : bs.WellFormed) :
    f.linearAcceleration c bs
      = f.checkpoint (fun b => (b.linearAccelerationAndJacobian f.t_).map Prod.fst) c bs := by
  have h := checkpoint_spec f (fun b => (b.linearAccelerationAndJacobian f.t_).map Prod.fst)
    id c bs hwf
  rw [map_id_eq] at h
  exact h

end FixedTimeBSplinePoseMinimal

/-! ### Linear acceleration -/

namespace BSplinePoseMinimal

theorem sum_range_six_mul (F : Nat → real_t) (k : Nat) :
    ∑ j in Finset.range (6 * k), F j
      = ∑ m in Finset.range k,
          (F (6 * m) + F (6 * m + 1) + F (6 * m + 2) + F (6 * m + 3) + F (6 * m + 4)
            + F (6 * m + 5)) := by
  induction k with
  | zero => simp
  | succ k ih =>
    rw [Nat.mul_succ, Finset.sum_range_succ, Finset.sum_range_succ, Finset.sum_range_succ,
      Finset.sum_range_succ, Finset.sum_range_succ, Finset.sum_range_succ,
      Finset.sum_range_succ, ih]
    ring

theorem sum_selector (w c : Nat → real_t) (k i : Nat) (hi : i < 6) :
    ∑ j in Finset.range (6 * k), (if j % 6 = i then w (j / 6) else 0) * c j
      = ∑ m in Finset.range k, w m * c (6 * m + i) := by
  rw [sum_range_six_mul]
  apply Finset.sum_congr rfl
  intro m _
  have h0 : (6 * m) % 6 = 0 := by omega
  have h1 : (6 * m + 1) % 6 = 1 := by omega
  have h2 : (6 * m + 2) % 6 = 2 := by omega
  have h3 : (6 * m + 3) % 6 = 3 := by omega
  have h4 : (6 * m + 4) % 6 = 4 := by omega
  have h5 : (6 * m + 5) % 6 = 5 := by omega
  have d0 : (6 * m) / 6 = m := by omega
  have d1 : (6 * m + 1) / 6 = m := by omega
  have d2 : (6 * m + 2) / 6 = m := by omega
  have d3 : (6 * m + 3) / 6 = m := by omega
  have d4 : (6 * m + 4) / 6 = m := by omega
  have d5 : (6 * m + 5) / 6 = m := by omega
  rw [h0, h1, h2, h3, h4, h5, d0, d1, d2, d3, d4, d5]
  interval_cases i <;> simp

theorem translationPart_apply (p : Vector6) (i : Fin 3) :
    translationPart p i = p (Fin.castLE (by decide) i) := by
  fin_cases i <;> rfl

end BSplinePoseMinimal

/-! ### The Cox–de Boor recursion on one knot span -/

namespace BSplinePoseMinimal

/-- Basis functions that start behind the knot span vanish on it. -/
theorem basisD_eq_zero_of_lt (kn : Nat → real_t) (j : Nat) (t : real_t) :
    ∀ (p d i : Nat), j < i → basisD kn j p d i t = 0 := by
  intro p
  induction p with
  | zero =>
    intro d i hi
    cases d with
    | zero => simp [basisD]; omega
    | succ d => simp [basisD]
  | succ p ih =>
    intro d i hi
    cases d with
    | zero => simp [basisD, ih 0 i hi, ih 0 (i + 1) (by omega)]
    | succ d => simp [basisD, ih d i hi, ih d (i + 1) (by omega)]

/-- Basis functions that end before the knot span vanish on it. -/
theorem basisD_eq_zero_of_add_lt (kn : Nat → real_t) (j : Nat) (t : real_t) :
    ∀ (p d i : Nat), i + p < j → basisD kn j p d i t = 0 := by
  intro p
  induction p with
  | zero =>
    intro d i hi
    cases d with
    | zero => simp [basisD]; omega
    | succ d => simp [basisD]
  | succ p ih =>
    intro d i hi
    cases d with
    | zero => simp [basisD, ih 0 i (by omega), ih 0 (i + 1) (by omega)]
    | succ d => simp [basisD, ih d i (by omega), ih d (i + 1) (by omega)]

/-- On the knot span `j`, the basis functions of degree `p` depend on the knots
up to index `j + p` only. -/
theorem basisD_congr (kn kn1 : Nat → real_t) (j : Nat) (t : real_t) :
    ∀ (p d i : Nat), i ≤ j → (∀ l, l ≤ j + p → kn1 l = kn l) →
      basisD kn1 j p d i t = basisD kn j p d i t := by
  intro p
  induction p with
  | zero =>
    intro d i _ _
    cases d <;> simp [basisD]
  | succ p ih =>
    intro d i hi hkn
    have hkn0 : ∀ l, l ≤ j + p → kn1 l = kn l := fun l hl => hkn l (by omega)
    have e1 : kn1 i = kn i := hkn i (by omega)
    have e2 : kn1 (i + p + 1) = kn (i + p + 1) := hkn _ (by omega)
    rcases Nat.lt_or_ge i j with hlt | hge
    · have e3 : kn1 (i + p + 2) = kn (i + p + 2) := hkn _ (by omega)
      have e4 : kn1 (i + 1) = kn (i + 1) := hkn _ (by omega)
      cases d with
      | zero => simp only [basisD, e1, e2, e3, e4, ih 0 i hi hkn0, ih 0 (i + 1) hlt hkn0]
      | succ d => simp only [basisD, e1, e2, e3, e4, ih d i hi hkn0, ih d (i + 1) hlt hkn0]
    · have hz : ∀ (k : Nat → real_t) (d : Nat), basisD k j p d (i + 1) t = 0 :=
        fun k d => basisD_eq_zero_of_lt k j t p d (i + 1) (by omega)
      cases d with
      | zero => simp only [basisD, e1, e2, hz, ih 0 i hi hkn0, mul_zero]
      | succ d => simp only [basisD, e1, e2, hz, ih d i hi hkn0, zero_div]

/-- One step of the recursion on a weighted sum (de Boor's algorithm): the
weights of degree `p + 1` against coefficients `c` are the weights of degree `p`
against the blended coefficients. -/
theorem sum_basisD_succ (kn : Nat → real_t) (j p : Nat) (t : real_t) (c : Nat → real_t) :
    ∑ i in Finset.range (j + 1), c i * basisD kn j (p + 1) 0 i t
      = ∑ i in Finset.range (j + 1),
          ((t - kn i) / (kn (i + p + 1) - kn i) * c i
            + (if i = 0 then 0
               else (kn (i + p + 1) - t) / (kn (i + p + 1) - kn i) * c (i - 1)))
            * basisD kn j p 0 i t := by
  have hsplit : ∀ i, c i * basisD kn j (p + 1) 0 i t
      = (t - kn i) / (kn (i + p + 1) - kn i) * c i * basisD kn j p 0 i t
        + (kn (i + p + 2) - t) / (kn (i + p + 2) - kn (i + 1)) * c i
            * basisD kn j p 0 (i + 1) t := by
    intro i
    simp only [basisD]
    ring
  have hshift : ∑ i in Finset.range (j + 1),
        (if i = 0 then 0 else (kn (i + p + 1) - t) / (kn (i + p + 1) - kn i) * c (i - 1))
          * basisD kn j p 0 i t
      = ∑ i in Finset.range (j + 1),
          (kn (i + p + 2) - t) / (kn (i + p + 2) - kn (i + 1)) * c i
            * basisD kn j p 0 (i + 1) t := by
    rw [Finset.sum_range_succ', Finset.sum_range_succ _ j,
      basisD_eq_zero_of_lt kn j t p 0 (j + 1) (by omega)]
    simp only [if_true, zero_mul, mul_zero, add_zero]
    apply Finset.sum_congr rfl
    intro i _
    have e : i + 1 + p + 1 = i + p + 2 := by omega
    simp [e]
  simp only [hsplit, add_mul, Finset.sum_add_distrib, hshift]

/-- Linear precision of the uniform B-spline basis: with knots `a + i * h`,
coefficients on a line `α + β * i` give a curve on that line. -/
theorem sum_basisD_linear (kn : Nat → real_t) (a h : real_t) (hh : h ≠ 0)
    (hkn : ∀ i, kn i = a + (i : real_t) * h) (j : Nat) (t : real_t) :
    ∀ (p : Nat), p ≤ j → ∀ (α β : real_t),
      ∑ i in Finset.range (j + 1), (α + β * (i : real_t)) * basisD kn j p 0 i t
        = α + β * linearParameter a h j p t := by
  intro p
  induction p with
  | zero =>
    intro _ α β
    simp [basisD, linearParameter]
  | succ p ih =>
    intro hp α β
    rw [sum_basisD_succ]
    have hp1 : ((p : real_t) + 1) ≠ 0 := by positivity
    have hstep : ∀ i ∈ Finset.range (j + 1),
        ((t - kn i) / (kn (i + p + 1) - kn i) * (α + β * (i : real_t))
          + (if i = 0 then 0
             else (kn (i + p + 1) - t) / (kn (i + p + 1) - kn i)
                    * (α + β * ((i - 1 : Nat) : real_t))))
            * basisD kn j p 0 i t
        = ((α + β * (((t - a) / h) / ((p : real_t) + 1) - 1))
            + (β * (p : real_t) / ((p : real_t) + 1)) * (i : real_t)) * basisD kn j p 0 i t := by
      intro i _
      rcases Nat.eq_zero_or_pos i with hi | hi
      · subst hi
        rw [basisD_eq_zero_of_add_lt kn j t p 0 0 (by omega)]
        simp
      · have hne : i ≠ 0 := by omega
        have hcast : ((i - 1 : Nat) : real_t) = (i : real_t) - 1 := by
          rw [Nat.cast_sub hi]
          simp
        have hden : kn (i + p + 1) - kn i = ((p : real_t) + 1) * h := by
          rw [hkn, hkn]
          push_cast
          ring
        rw [if_neg hne, hcast, hden, hkn (i + p + 1), hkn i]
        congr 1
        push_cast
        field_simp
        ring
    rw [Finset.sum_congr rfl hstep, ih (by omega)]
    unfold linearParameter
    rcases Nat.eq_zero_or_pos p with h0 | h0
    · subst h0
      simp
    · have hp0 : p ≠ 0 := by omega
      rw [if_neg hp0, if_neg (by omega)]
      push_cast
      field_simp
      ring

end BSplinePoseMinimal

/-! ### Initialisation -/

namespace BSplinePoseMinimal

theorem initPoseSpline_ok_iff (R : RotationParameterization) (bs s : BSplinePoseMinimal)
    (t0 t1 : real_t) (A B : Matrix4) :
    initPoseSpline R bs t0 t1 A B = .ok s ↔
      t0 < t1 ∧ s = { spline_order_ := bs.spline_order_
                      knots_ := (List.range (2 * bs.spline_order_)).map fun (i : Nat) =>
                        t0 + ((i : real_t) - ((bs.spline_order_ : real_t) - 1)) * (t1 - t0)
                      coefficients_ := (List.range bs.spline_order_).map fun (i : Nat) =>
                        transformationToCurveValue R A
                          + ((i : real_t) + 1 - (bs.spline_order_ : real_t) / 2)
                            • (transformationToCurveValue R B - transformationToCurveValue R A) } := by
  unfold initPoseSpline
  by_cases h : t0 < t1
  · simp only [h, if_true, true_and]
    constructor
    · intro e
      injection e with e
      exact e.symm
    · intro e
      rw [e]
  · simp [h]

/-- The structure of the spline that `initPoseSpline` sets up. -/
theorem initPoseSpline_structure (R : RotationParameterization) (bs s : BSplinePoseMinimal)
    (t0 t1 : real_t) (A B : Matrix4) (hs : initPoseSpline R bs t0 t1 A B = .ok s) :
    s.spline_order_ = bs.spline_order_ ∧ s.knots_.length = 2 * bs.spline_order_
      ∧ s.coefficients_.length = bs.spline_order_
      ∧ (∀ i, i < 2 * bs.spline_order_ →
          s.knot i = t0 + ((i : real_t) - ((bs.spline_order_ : real_t) - 1)) * (t1 - t0))
      ∧ (∀ m, m < bs.spline_order_ → s.coefficient m
          = transformationToCurveValue R A
            + ((m : real_t) + 1 - (bs.spline_order_ : real_t) / 2)
              • (transformationToCurveValue R B - transformationToCurveValue R A)) := by
  obtain ⟨-, rfl⟩ := (initPoseSpline_ok_iff R bs s t0 t1 A B).1 hs
  refine ⟨rfl, by simp, by simp, ?_, ?_⟩
  · intro i hi
    simp [knot, List.getD_eq_getElem?_getD, List.getElem?_map, List.getElem?_range hi]
  · intro m hm
    simp [coefficient, List.getD_eq_getElem?_getD, List.getElem?_map, List.getElem?_range hm]

theorem initPoseSpline_domain (R : RotationParameterization) (bs s : BSplinePoseMinimal)
    (t0 t1 : real_t) (A B : Matrix4) (hk : 2 ≤ bs.spline_order_)
    (hs : initPoseSpline R bs t0 t1 A B = .ok s) :
    s.t_min = t0 ∧ s.t_max = t1 ∧ ∀ t, s.segmentIndex t = bs.spline_order_ - 1
      ∧ s.windowStart t = 0 := by
  obtain ⟨ho, hlen, -, hkn, -⟩ := initPoseSpline_structure R bs s t0 t1 A B hs
  have hcast : ((bs.spline_order_ - 1 : Nat) : real_t) = (bs.spline_order_ : real_t) - 1 := by
    rw [Nat.cast_sub (by omega)]
    simp
  have hseg : ∀ t, s.segmentIndex t = bs.spline_order_ - 1 := by
    intro t
    have hm : s.numValidTimeSegments - 1 = 0 := by
      unfold numValidTimeSegments
      omega
    unfold segmentIndex
    rw [hm, ho]
    rfl
  refine ⟨?_, ?_, fun t => ⟨hseg t, ?_⟩⟩
  · unfold t_min
    rw [ho, hkn _ (by omega), hcast]
    ring
  · unfold t_max
    rw [ho, hlen, show 2 * bs.spline_order_ - bs.spline_order_ = bs.spline_order_ by omega,
      hkn _ (by omega)]
    ring
  · unfold windowStart
    rw [hseg, ho]
    omega

/-- The curve set up by `initPoseSpline` is the straight line from the curve
value of `A` at `t0` to the curve value of `B` at `t1`. -/
theorem initPoseSpline_curveValue (R : RotationParameterization) (bs s : BSplinePoseMinimal)
    (t0 t1 : real_t) (A B : Matrix4) (hk : 2 ≤ bs.spline_order_)
    (hs : initPoseSpline R bs t0 t1 A B = .ok s) (t : real_t) :
    s.curveValue t 0 = transformationToCurveValue R A
      + ((t - t0) / (t1 - t0))
        • (transformationToCurveValue R B - transformationToCurveValue R A) := by
  obtain ⟨ho, hlen, -, hkn, hco⟩ := initPoseSpline_structure R bs s t0 t1 A B hs
  obtain ⟨-, -, hseg⟩ := initPoseSpline_domain R bs s t0 t1 A B hk hs
  obtain ⟨ht01, -⟩ := (initPoseSpline_ok_iff R bs s t0 t1 A B).1 hs
  have hh : t1 - t0 ≠ 0 := sub_ne_zero.mpr (ne_of_gt ht01)
  set k := bs.spline_order_ with hkdef
  set p0 := transformationToCurveValue R A
  set p1 := transformationToCurveValue R B
  funext r
  let kn : Nat → real_t := fun i => (t0 - ((k : real_t) - 1) * (t1 - t0)) + (i : real_t) * (t1 - t0)
  have hkk : k - 1 + 1 = k := by omega
  have hcast : ((k - 1 : Nat) : real_t) = (k : real_t) - 1 := by
    rw [Nat.cast_sub (by omega)]
    simp
  have hbasis : ∀ m, m < k →
      s.basisWeight t 0 m = basisD kn (k - 1) (k - 1) 0 m t := by
    intro m hm
    unfold basisWeight
    rw [(hseg t).1, (hseg t).2, ho, Nat.zero_add]
    apply basisD_congr
    · omega
    · intro l hl
      rw [hkn l (by omega)]
      simp only [kn]
      ring
  have hsum : s.curveValue t 0 r
      = ∑ m in Finset.range (k - 1 + 1),
          ((p0 r + (1 - (k : real_t) / 2) * (p1 r - p0 r)) + (p1 r - p0 r) * (m : real_t))
            * basisD kn (k - 1) (k - 1) 0 m t := by
    unfold curveValue
    rw [ho, hkk]
    apply Finset.sum_congr rfl
    intro m hm
    have hm := Finset.mem_range.1 hm
    rw [hbasis m hm, (hseg t).2, Nat.zero_add, hco m hm]
    simp only [Pi.add_apply, Pi.smul_apply, Pi.sub_apply, smul_eq_mul]
    ring
  rw [hsum, sum_basisD_linear kn _ (t1 - t0) hh (fun i => rfl) (k - 1) t (k - 1) le_rfl]
  unfold linearParameter
  rw [if_neg (by omega), hcast]
  simp only [Pi.add_apply, Pi.smul_apply, Pi.sub_apply, smul_eq_mul]
  field_simp
  ring

end BSplinePoseMinimal

namespace BSplinePoseMinimal

theorem initPoseSpline_wellFormed (R : RotationParameterization) (bs s : BSplinePoseMinimal)
    (t0 t1 : real_t) (A B : Matrix4) (hk : 2 ≤ bs.spline_order_)
    (hs : initPoseSpline R bs t0 t1 A B = .ok s) : s.WellFormed := by
  obtain ⟨ho, hlen, hclen, hkn, -⟩ := initPoseSpline_structure R bs s t0 t1 A B hs
  obtain ⟨ht01, -⟩ := (initPoseSpline_ok_iff R bs s t0 t1 A B).1 hs
  refine ⟨by omega, by omega, by omega, ?_⟩
  intro i hi
  rw [hkn i (by omega), hkn (i + 1) (by omega)]
  push_cast
  nlinarith

end BSplinePoseMinimal

/-! ### Extension -/

namespace BSplinePoseMinimal

theorem findSegment_congr (kn kn1 : Nat → real_t) (t : real_t) (lo : Nat) :
    ∀ m, (∀ l, l ≤ lo + m → kn1 l = kn l) → findSegment kn1 t lo m = findSegment kn t lo m := by
  intro m
  induction m with
  | zero => intro _; rfl
  | succ m ih =>
    intro h
    unfold findSegment
    rw [h (lo + m + 1) (by omega), ih (fun l hl => h l (by omega))]

theorem addPoseSegment_ok_iff (R : RotationParameterization) (bs s : BSplinePoseMinimal)
    (t : real_t) (pose : Matrix4) :
    addPoseSegment R bs t pose = .ok s ↔
      bs.t_max < t ∧ s = { spline_order_ := bs.spline_order_
                           knots_ := bs.knots_.take (bs.knots_.length - bs.spline_order_ + 1) ++
                             (List.range bs.spline_order_).map fun (i : Nat) =>
                               t + (i : real_t) * (t - bs.t_max)
                           coefficients_ :=
                             bs.coefficients_ ++ [transformationToCurveValue R pose] } := by
  unfold addPoseSegment
  by_cases h : bs.t_max < t
  · simp only [h, if_true, true_and]
    constructor
    · intro e
      injection e with e
      exact e.symm
    · intro e
      rw [e]
  · simp [h]

/-- The structure of the spline after `addPoseSegment`. -/
theorem addPoseSegment_structure (R : RotationParameterization) (bs s : BSplinePoseMinimal)
    (t : real_t) (pose : Matrix4) (hwf : bs.WellFormed)
    (hs : addPoseSegment R bs t pose = .ok s) :
    s.spline_order_ = bs.spline_order_
      ∧ s.knots_.length = bs.coefficients_.length + 1 + bs.spline_order_
      ∧ s.coefficients_.length = bs.coefficients_.length + 1
      ∧ (∀ l, l ≤ bs.coefficients_.length → s.knot l = bs.knot l)
      ∧ (∀ i, i < bs.spline_order_ →
          s.knot (bs.coefficients_.length + 1 + i) = t + (i : real_t) * (t - bs.t_max))
      ∧ (∀ l, l < bs.coefficients_.length → s.coefficient l = bs.coefficient l) := by
  obtain ⟨h2, hk, hlen, -⟩ := hwf
  obtain ⟨-, rfl⟩ := (addPoseSegment_ok_iff R bs s t pose).1 hs
  have hn : bs.knots_.length - bs.spline_order_ + 1 = bs.coefficients_.length + 1 := by omega
  have htake : (bs.knots_.take (bs.coefficients_.length + 1)).length
      = bs.coefficients_.length + 1 := by
    simp [List.length_take]
    omega
  simp only [hn]
  refine ⟨trivial, ?_, by simp, ?_, ?_, ?_⟩
  · simp [List.length_take]
    omega
  · intro l hl
    simp only [knot, List.getD_eq_getElem?_getD]
    rw [List.getElem?_append_left (by omega), List.getElem?_take_of_lt (by omega)]
  · intro i hi
    simp only [knot, List.getD_eq_getElem?_getD]
    rw [List.getElem?_append_right (by omega), htake]
    simp [List.getElem?_map, List.getElem?_range hi]
  · intro l hl
    simp only [coefficient, List.getD_eq_getElem?_getD]
    rw [List.getElem?_append_left hl]

theorem t_max_eq_knot (bs : BSplinePoseMinimal) (hwf : bs.WellFormed) :
    bs.t_max = bs.knot bs.coefficients_.length := by
  obtain ⟨-, -, hlen, -⟩ := hwf
  unfold t_max
  rw [hlen]
  simp

theorem addPoseSegment_domain (R : RotationParameterization) (bs s : BSplinePoseMinimal)
    (t : real_t) (pose : Matrix4) (hwf : bs.WellFormed)
    (hs : addPoseSegment R bs t pose = .ok s) :
    s.t_max = t ∧ s.t_min = bs.t_min := by
  obtain ⟨ho, hlen, -, hlow, hhigh, -⟩ := addPoseSegment_structure R bs s t pose hwf hs
  obtain ⟨h2, hk, -, -⟩ := hwf
  constructor
  · unfold t_max
    rw [ho, hlen, show bs.coefficients_.length + 1 + bs.spline_order_ - bs.spline_order_
      = bs.coefficients_.length + 1 + 0 by omega, hhigh 0 (by omega)]
    simp
  · unfold t_min
    rw [ho, hlow _ (by omega)]

theorem addPoseSegment_wellFormed (R : RotationParameterization) (bs s : BSplinePoseMinimal)
    (t : real_t) (pose : Matrix4) (hwf : bs.WellFormed)
    (hs : addPoseSegment R bs t pose = .ok s) : s.WellFormed := by
  obtain ⟨ho, hlen, hclen, hlow, hhigh, -⟩ := addPoseSegment_structure R bs s t pose hwf hs
  obtain ⟨ht, -⟩ := (addPoseSegment_ok_iff R bs s t pose).1 hs
  have hmax := bs.t_max_eq_knot hwf
  obtain ⟨h2, hk, hblen, hinc⟩ := hwf
  refine ⟨by omega, by omega, by omega, ?_⟩
  intro i hi
  rcases Nat.lt_or_ge i bs.coefficients_.length with h | h
  · rw [hlow i (by omega), hlow (i + 1) (by omega)]
    exact hinc i (by omega)
  · obtain ⟨e, rfl⟩ : ∃ e, i = bs.coefficients_.length + e := ⟨i - bs.coefficients_.length, by omega⟩
    rcases Nat.eq_zero_or_pos e with he | he
    · subst he
      rw [Nat.add_zero, hlow _ le_rfl, ← hmax,
        show bs.coefficients_.length + 1 = bs.coefficients_.length + 1 + 0 by omega,
        hhigh 0 (by omega)]
      simpa using ht
    · obtain ⟨e1, rfl⟩ : ∃ e1, e = e1 + 1 := ⟨e - 1, by omega⟩
      rw [show bs.coefficients_.length + (e1 + 1) = bs.coefficients_.length + 1 + e1 by omega,
        show bs.coefficients_.length + 1 + e1 + 1 = bs.coefficients_.length + 1 + (e1 + 1) by omega,
        hhigh e1 (by omega), hhigh (e1 + 1) (by omega)]
      push_cast
      nlinarith

/-- The curve is unchanged by `addPoseSegment` at every time of the prior domain
whose basis functions do not see a margin knot that moved. -/
theorem addPoseSegment_evalD (R : RotationParameterization) (bs s : BSplinePoseMinimal)
    (t : real_t) (pose : Matrix4) (hwf : bs.WellFormed)
    (hs : addPoseSegment R bs t pose = .ok s) (τ : real_t) (hτ : bs.t_min ≤ τ ∧ τ < bs.t_max)
    (hkn : ∀ i, bs.coefficients_.length + 1 + i < bs.segmentIndex τ + bs.spline_order_ →
      bs.knot (bs.coefficients_.length + 1 + i) = t + (i : real_t) * (t - bs.t_max))
    (d : Nat) : s.evalD τ d = bs.evalD τ d := by
  obtain ⟨ho, hlen, hclen, hlow, hhigh, hcoef⟩ := addPoseSegment_structure R bs s t pose hwf hs
  obtain ⟨hmax, hmin⟩ := addPoseSegment_domain R bs s t pose hwf hs
  obtain ⟨ht, -⟩ := (addPoseSegment_ok_iff R bs s t pose).1 hs
  have hmaxk := bs.t_max_eq_knot hwf
  have hjlt := bs.segmentIndex_lt τ hwf
  have hwin := bs.windowStart_add_order τ hwf
  obtain ⟨h2, hk, hblen, hinc⟩ := hwf
  have hseg : s.segmentIndex τ = bs.segmentIndex τ := by
    unfold segmentIndex numValidTimeSegments
    rw [ho, hlen, hblen,
      show bs.coefficients_.length + 1 + bs.spline_order_ + 1 - 2 * bs.spline_order_ - 1
        = (bs.coefficients_.length + bs.spline_order_ + 1 - 2 * bs.spline_order_ - 1) + 1 by omega]
    rw [findSegment]
    have hidx : bs.spline_order_ - 1
        + (bs.coefficients_.length + bs.spline_order_ + 1 - 2 * bs.spline_order_ - 1) + 1
        = bs.coefficients_.length := by omega
    rw [hidx, hlow _ le_rfl, ← hmaxk, if_neg (not_le.mpr hτ.2)]
    apply findSegment_congr
    intro l hl
    exact hlow l (by omega)
  have hws : s.windowStart τ = bs.windowStart τ := by
    unfold windowStart
    rw [hseg, ho]
  have hknots : ∀ l, l ≤ bs.segmentIndex τ + (bs.spline_order_ - 1) → s.knot l = bs.knot l := by
    intro l hl
    rcases Nat.lt_or_ge bs.coefficients_.length l with h | h
    · obtain ⟨i, rfl⟩ : ∃ i, l = bs.coefficients_.length + 1 + i :=
        ⟨l - (bs.coefficients_.length + 1), by omega⟩
      rw [hhigh i (by omega), hkn i (by omega)]
    · exact hlow l h
  have hcurve : s.curveValue τ d = bs.curveValue τ d := by
    funext r
    unfold curveValue
    rw [ho]
    apply Finset.sum_congr rfl
    intro m hm
    have hm := Finset.mem_range.1 hm
    unfold basisWeight
    rw [hseg, hws, ho, hcoef _ (by omega)]
    congr 1
    exact basisD_congr bs.knot s.knot _ τ _ d _ (by omega) hknots
  unfold evalD
  rw [hmin, hmax, ho, hcurve]
  have h1 : ¬ (τ < bs.t_min ∨ t ≤ τ) := by
    rintro (h | h)
    · exact absurd hτ.1 (not_le.mpr h)
    · exact absurd (lt_trans hτ.2 ht) (not_lt.mpr h)
  have h2 : ¬ (τ < bs.t_min ∨ bs.t_max ≤ τ) := by
    rintro (h | h)
    · exact absurd hτ.1 (not_le.mpr h)
    · exact absurd hτ.2 (not_lt.mpr h)
  rw [if_neg h1, if_neg h2]

end BSplinePoseMinimal

namespace BSplinePoseMinimal

end BSplinePoseMinimal

namespace BSplinePoseMinimal

theorem curveValueToTransformation_translation (R : RotationParameterization) (p : Vector6) :
    curveValueToTransformation R p 0 3 = p 0 := by
  simp [curveValueToTransformation]

end BSplinePoseMinimal

/-! ### The basis derivatives are time derivatives -/

namespace BSplinePoseMinimal

theorem basisD_derivative_identity (t a b c u v w X Y Z n : real_t) (h1 : v - a ≠ 0)
    (h2 : w - b ≠ 0) :
    1 / (v - a) * ((t - a) / (u - a) * X + (v - t) / (v - b) * Y)
        + (t - a) / (v - a) * (n * (X / (u - a) - Y / (v - b)))
        + (-1 / (w - b) * ((t - b) / (v - b) * Y + (w - t) / (w - c) * Z)
        + (w - t) / (w - b) * (n * (Y / (v - b) - Z / (w - c))))
      = (n + 1) * (((t - a) / (u - a) * X + (v - t) / (v - b) * Y) / (v - a)
          - ((t - b) / (v - b) * Y + (w - t) / (w - c) * Z) / (w - b)) := by
  have e1 : (v - a) * (v - a)⁻¹ = 1 := mul_inv_cancel₀ h1
  have e2 : (w - b) * (w - b)⁻¹ = 1 := mul_inv_cancel₀ h2
  linear_combination (-(n * Y * (v - b)⁻¹)) * e1 + (n * Y * (v - b)⁻¹) * e2

/-- On a knot span, with distinct knots, the Cox–de Boor derivative recursion
computes the time derivative: the weight of derivative order `d + 1` is the
derivative of the weight of derivative order `d`. -/
theorem hasDerivAt_basisD (kn : Nat → real_t) (j L : Nat)
    (hkn : ∀ a b, a < b → b ≤ L → kn a ≠ kn b) (t : real_t) :
    ∀ (p d i : Nat), i + p + 1 ≤ L →
      HasDerivAt (fun τ => basisD kn j p d i τ) (basisD kn j p (d + 1) i t) t := by
  intro p
  induction p with
  | zero =>
    intro d i _
    cases d with
    | zero =>
      simp only [basisD]
      exact hasDerivAt_const t _
    | succ d =>
      simp only [basisD]
      exact hasDerivAt_const t _
  | succ p ih =>
    intro d i hi
    cases d with
    | zero =>
      have hA : HasDerivAt (fun τ : real_t => (τ - kn i) / (kn (i + p + 1) - kn i))
          (1 / (kn (i + p + 1) - kn i)) t :=
        ((hasDerivAt_id t).sub_const (kn i)).div_const _
      have hB : HasDerivAt (fun τ : real_t => (kn (i + p + 2) - τ) / (kn (i + p + 2) - kn (i + 1)))
          (-1 / (kn (i + p + 2) - kn (i + 1))) t :=
        ((hasDerivAt_id t).const_sub (kn (i + p + 2))).div_const _
      have h1 := ih 0 i (by omega)
      have h2 := ih 0 (i + 1) (by omega)
      have hsum := (hA.mul h1).add (hB.mul h2)
      have hfun : (fun τ => basisD kn j (p + 1) 0 i τ)
          = (fun τ : real_t => (τ - kn i) / (kn (i + p + 1) - kn i)) * (fun τ => basisD kn j p 0 i τ)
            + (fun τ : real_t => (kn (i + p + 2) - τ) / (kn (i + p + 2) - kn (i + 1)))
              * (fun τ => basisD kn j p 0 (i + 1) τ) := by
        funext τ
        simp [basisD]
      rw [hfun]
      refine hsum.congr_deriv ?_
      have d1 : kn (i + p + 1) - kn i ≠ 0 :=
        sub_ne_zero.mpr (Ne.symm (hkn i (i + p + 1) (by omega) (by omega)))
      have d2 : kn (i + p + 2) - kn (i + 1) ≠ 0 :=
        sub_ne_zero.mpr (Ne.symm (hkn (i + 1) (i + p + 2) (by omega) (by omega)))
      cases p with
      | zero =>
        simp only [basisD, id]
        ring
      | succ q =>
        have e1 : i + (q + 1) + 1 = i + q + 2 := by omega
        have e2 : i + (q + 1) + 2 = i + q + 3 := by omega
        have e3 : i + 1 + q + 1 = i + q + 2 := by omega
        have e4 : i + 1 + q + 2 = i + q + 3 := by omega
        have e5 : i + 1 + 1 = i + 2 := by omega
        have e6 : i + q + 1 + 1 = i + q + 2 := by omega
        have e7 : i + q + 1 + 2 = i + q + 3 := by omega
        simp only [e1, e2] at d1 d2 ⊢
        have key := basisD_derivative_identity t (kn i) (kn (i + 1)) (kn (i + 2))
          (kn (i + q + 1)) (kn (i + q + 2)) (kn (i + q + 3)) (basisD kn j q 0 i t)
          (basisD kn j q 0 (i + 1) t) (basisD kn j q 0 (i + 2) t) ((q : real_t) + 1) d1 d2
        simp only [basisD, id, e1, e2, e3, e4, e5, e6, e7]
        push_cast
        linear_combination key
    | succ d =>
      have h1 := ih d i (by omega)
      have h2 := ih d (i + 1) (by omega)
      have h := ((h1.div_const (kn (i + p + 1) - kn i)).sub
        (h2.div_const (kn (i + p + 2) - kn (i + 1)))).const_mul ((p : real_t) + 1)
      have hfun : (fun τ => basisD kn j (p + 1) (d + 1) i τ)
          = fun τ => ((p : real_t) + 1) *
              (basisD kn j p d i τ / (kn (i + p + 1) - kn i)
                - basisD kn j p d (i + 1) τ / (kn (i + p + 2) - kn (i + 1))) := by
        funext τ
        simp [basisD]
      rw [hfun]
      exact h

end BSplinePoseMinimal

namespace BSplinePoseMinimal

theorem knot_strictMono (bs : BSplinePoseMinimal) (hwf : bs.WellFormed) :
    ∀ b a, a < b → b < bs.knots_.length → bs.knot a < bs.knot b := by
  obtain ⟨-, -, -, hinc⟩ := hwf
  intro b
  induction b with
  | zero => intro a ha; omega
  | succ b ih =>
    intro a ha hb
    rcases Nat.lt_or_ge a b with h | h
    · exact lt_trans (ih a h (by omega)) (hinc b hb)
    · have : a = b := by omega
      subst this
      exact hinc a hb

theorem findSegment_eq (kn : Nat → real_t) (τ : real_t) (lo j : Nat) (hlo : lo ≤ j)
    (hj : kn j ≤ τ) :
    ∀ m, j ≤ lo + m → (∀ l, j < l → l ≤ lo + m → τ < kn l) → findSegment kn τ lo m = j := by
  intro m
  induction m with
  | zero =>
    intro h _
    simp only [findSegment]
    omega
  | succ m ih =>
    intro h hl
    unfold findSegment
    rcases Nat.lt_or_ge j (lo + m + 1) with h1 | h1
    · rw [if_neg (not_le.mpr (hl _ h1 (by omega)))]
      exact ih (by omega) (fun l h2 h3 => hl l h2 (by omega))
    · have e : lo + m + 1 = j := by omega
      rw [e, if_pos hj]

/-- The knot span `[knot j, knot (j + 1))` of the valid domain is found for each
of its times. -/
theorem segmentIndex_eq (bs : BSplinePoseMinimal) (hwf : bs.WellFormed) (τ : real_t) (j : Nat)
    (hlo : bs.spline_order_ - 1 ≤ j) (hhi : j < bs.coefficients_.length)
    (h1 : bs.knot j ≤ τ) (h2 : τ < bs.knot (j + 1)) : bs.segmentIndex τ = j := by
  have hmono := bs.knot_strictMono hwf
  obtain ⟨hk2, hk, hlen, -⟩ := hwf
  unfold segmentIndex numValidTimeSegments
  apply findSegment_eq bs.knot τ _ j hlo h1
  · omega
  · intro l hjl hl
    rcases Nat.lt_or_ge (j + 1) l with h | h
    · exact lt_trans h2 (hmono l (j + 1) h (by omega))
    · have : l = j + 1 := by omega
      rw [this]
      exact h2

theorem curveValue_eq_spanCurve (bs : BSplinePoseMinimal) (t : real_t) (d : Nat) :
    bs.curveValue t d = bs.spanCurve t d t := rfl

/-- On the knot span of `t`, the curve of derivative order `d + 1` is the time
derivative of the curve of derivative order `d`. -/
theorem hasDerivAt_spanCurve (bs : BSplinePoseMinimal) (hwf : bs.WellFormed) (t : real_t)
    (d : Nat) (r : Fin 6) :
    HasDerivAt (fun τ => bs.spanCurve t d τ r) (bs.curveValue t (d + 1) r) t := by
  have hmono := bs.knot_strictMono hwf
  have hj := bs.segmentIndex_lt t hwf
  have hwin := bs.windowStart_add_order t hwf
  have hlen := hwf.2.2.1
  have hk2 := hwf.1
  have hdist : ∀ a b, a < b → b ≤ bs.knots_.length - 1 → bs.knot a ≠ bs.knot b :=
    fun a b hab hb => ne_of_lt (hmono b a hab (by omega))
  rw [curveValue_eq_spanCurve]
  unfold spanCurve
  apply HasDerivAt.sum
  intro m hm
  have hm := Finset.mem_range.1 hm
  exact (hasDerivAt_basisD bs.knot (bs.segmentIndex t) (bs.knots_.length - 1) hdist t
    (bs.spline_order_ - 1) d (bs.windowStart t + m) (by omega)).mul_const _

/-- In the interior of a knot span, `evalD(t, d + 1)` is the time derivative of
`evalD(·, d)`. -/
theorem hasDerivAt_curveValue (bs : BSplinePoseMinimal) (hwf : bs.WellFormed) (t : real_t)
    (j : Nat) (hlo : bs.spline_order_ - 1 ≤ j) (hhi : j < bs.coefficients_.length)
    (h1 : bs.knot j < t) (h2 : t < bs.knot (j + 1)) (d : Nat) (r : Fin 6) :
    HasDerivAt (fun τ => bs.curveValue τ d r) (bs.curveValue t (d + 1) r) t := by
  have hspan := bs.hasDerivAt_spanCurve hwf t d r
  have hjt := bs.segmentIndex_eq hwf t j hlo hhi (le_of_lt h1) h2
  refine hspan.congr_of_eventuallyEq ?_
  have hmem : Set.Ioo (bs.knot j) (bs.knot (j + 1)) ∈ nhds t := Ioo_mem_nhds h1 h2
  filter_upwards [hmem] with τ hτ
  have hjτ := bs.segmentIndex_eq hwf τ j hlo hhi (le_of_lt hτ.1) hτ.2
  simp only [curveValue, spanCurve, basisWeight, windowStart, hjτ, hjt]

end BSplinePoseMinimal

namespace BSplinePoseMinimal

theorem span_polynomial_identity (x y τ : real_t) (hx : x ≠ 0) (hD : x - y ≠ 0)
    (h : (-1 / 2) * ((x - τ) / (x - y) * ((x - τ) / x))
        + (1 / 2) * ((τ - y) / (x - y) * ((x - τ) / x) + (3 - τ) / 3 * (τ / x))
        + (3 / 2) * (τ / 3 * (τ / x)) = τ) :
    3 * (x - τ) * (2 * τ - y - x) + (x - y) * (3 * τ + 2 * τ ^ 2) = 6 * (x - y) * x * τ := by
  have e : (-1 / 2) * ((x - τ) / (x - y) * ((x - τ) / x))
        + (1 / 2) * ((τ - y) / (x - y) * ((x - τ) / x) + (3 - τ) / 3 * (τ / x))
        + (3 / 2) * (τ / 3 * (τ / x))
      = (3 * (x - τ) * (2 * τ - y - x) + (x - y) * (3 * τ + 2 * τ ^ 2)) / (6 * (x - y) * x) := by
    field_simp
    ring
  rw [e, div_eq_iff (by simp [hx, hD])] at h
  linear_combination h

/-- The two postconditions of C4 exclude each other whatever knots the extension
picks: take the spline of order 3 set up by `initPoseSpline(0, 1, A, B)`, with
`A` the identity pose and `B` the translation by `(1, 0, 0)`. No initialised
spline of order 3 that keeps its three coefficients, has one coefficient more,
starts its domain at `0` and ends it at `3` has the same curve on `[0, 1)`. -/
theorem no_extension_keeps_trajectory (s0 s : BSplinePoseMinimal) (c : Vector6)
    (hs0 : initPoseSpline gibbsRotation ⟨3, [], []⟩ 0 1
      (curveValueToTransformation gibbsRotation 0)
      (curveValueToTransformation gibbsRotation ![1, 0, 0, 0, 0, 0]) = .ok s0)
    (hwf : s.WellFormed) (ho : s.spline_order_ = 3)
    (hco : s.coefficients_ = s0.coefficients_ ++ [c])
    (hmin : s.t_min = 0) (hmax : s.t_max = 3) :
    ∃ τ, 0 ≤ τ ∧ τ < 1 ∧ s.curveValue τ 0 ≠ s0.curveValue τ 0 := by
  obtain ⟨-, -, hclen, -, hco0⟩ := initPoseSpline_structure gibbsRotation _ s0 0 1 _ _ hs0
  have hcurve := initPoseSpline_curveValue gibbsRotation _ s0 0 1 _ _ (by decide) hs0
  rw [curveValue_roundtrip_aux gibbsRotation 0 trivial,
    curveValue_roundtrip_aux gibbsRotation ![1, 0, 0, 0, 0, 0] trivial] at hcurve hco0
  have hclen3 : s0.coefficients_.length = 3 := hclen
  have hslen : s.coefficients_.length = 4 := by rw [hco]; simp [hclen3]
  have hmono := s.knot_strictMono hwf
  have hklen : s.knots_.length = 7 := by rw [hwf.2.2.1, hslen, ho]
  have k2 : s.knot 2 = 0 := by
    rw [← hmin]
    unfold t_min
    rw [ho]
  have k4 : s.knot 4 = 3 := by
    rw [← hmax]
    unfold t_max
    rw [ho, hklen]
  have h12 := hmono 2 1 (by decide) (by rw [hklen]; decide)
  have h23 := hmono 3 2 (by decide) (by rw [hklen]; decide)
  have h34 := hmono 4 3 (by decide) (by rw [hklen]; decide)
  rw [k2] at h12 h23
  rw [k4] at h34
  have hcoef : ∀ m, m < 3 → s.coefficient m 0 = (m : real_t) - 1 / 2 := by
    intro m hm
    unfold coefficient
    rw [hco, List.getD_eq_getElem?_getD, List.getElem?_append_left (by omega),
      ← List.getD_eq_getElem?_getD]
    have := hco0 m hm
    unfold coefficient at this
    rw [this]
    norm_num
    ring
  have c0 := hcoef 0 (by decide)
  have c1 := hcoef 1 (by decide)
  have c2 := hcoef 2 (by decide)
  norm_num at c0 c1 c2
  have hval : ∀ τ, 0 ≤ τ → τ < s.knot 3 → s.curveValue τ 0 0
      = (-1 / 2) * ((s.knot 3 - τ) / (s.knot 3 - s.knot 1) * ((s.knot 3 - τ) / s.knot 3))
        + (1 / 2) * ((τ - s.knot 1) / (s.knot 3 - s.knot 1) * ((s.knot 3 - τ) / s.knot 3)
            + (3 - τ) / 3 * (τ / s.knot 3))
        + (3 / 2) * (τ / 3 * (τ / s.knot 3)) := by
    intro τ h0 h1
    have hseg : s.segmentIndex τ = 2 :=
      s.segmentIndex_eq hwf τ 2 (by rw [ho]) (by rw [hslen]; decide) (by rw [k2]; exact h0) h1
    have hws : s.windowStart τ = 0 := by
      unfold windowStart
      rw [hseg, ho]
    unfold curveValue basisWeight
    rw [hseg, hws, ho]
    simp [Finset.sum_range_succ, basisD, k2, k4, c0, c1, c2]
    ring
  have hval0 : ∀ τ, s0.curveValue τ 0 0 = τ := by
    intro τ
    rw [hcurve]
    simp
  by_contra hall
  push_neg at hall
  have heq : ∀ τ, 0 ≤ τ → τ < 1 → τ < s.knot 3 → s.curveValue τ 0 0 = τ := by
    intro τ h0 h1 h3
    rw [hall τ h0 h1, hval0]
  have hk3 : s.knot 3 ≠ 0 := ne_of_gt h23
  have hD : s.knot 3 - s.knot 1 ≠ 0 := by
    have : 0 < s.knot 3 - s.knot 1 := by linarith
    exact ne_of_gt this
  have e0 := heq 0 le_rfl (by norm_num) h23
  have e1 := heq (s.knot 3 / 6) (by positivity) (by linarith) (by linarith)
  have e2 := heq (s.knot 3 / 3) (by positivity) (by linarith) (by linarith)
  rw [hval 0 le_rfl h23] at e0
  rw [hval _ (by positivity) (by linarith)] at e1 e2
  have P0 := span_polynomial_identity _ _ _ hk3 hD e0
  have P1 := span_polynomial_identity _ _ _ hk3 hD e1
  have P2 := span_polynomial_identity _ _ _ hk3 hD e2
  have hy : s.knot 1 = -s.knot 3 := by
    have hz : s.knot 3 * (s.knot 1 + s.knot 3) = 0 := by linear_combination (-1 / 3) * P0
    rcases mul_eq_zero.1 hz with h | h
    · exact absurd h hk3
    · linarith
  rw [hy] at P1 P2
  have q1 : s.knot 3 ^ 2 * (33 - 34 * s.knot 3) = 0 := by linear_combination 18 * P1
  have q2 : s.knot 3 ^ 2 * (15 - 16 * s.knot 3) = 0 := by linear_combination (9 / 2) * P2
  have hx2 : s.knot 3 ^ 2 ≠ 0 := pow_ne_zero 2 hk3
  have r1 := (mul_eq_zero.1 q1).resolve_left hx2
  have r2 := (mul_eq_zero.1 q2).resolve_left hx2
  linarith

end BSplinePoseMinimal

/-! ### Linear acceleration and its Jacobian -/

namespace FixedTimeBSplinePoseMinimal

open BSplinePoseMinimal

end FixedTimeBSplinePoseMinimal

/-! ### The plotter -/

namespace PangolinPlotter

/-- Once the flag is set, the inner loop exits at its first test. -/
theorem renderLoop_requestStop (p : PangolinPlotter) (fuel : Nat) :
    p.requestStop.renderLoop (fuel + 1) = some 0 := by
  simp [renderLoop, isStopRequested, requestStop]

/-- The flag, once set, stays set: `requestStop` is the only writer and it
writes `true`. -/
theorem requestStop_idempotent (p : PangolinPlotter) :
    p.requestStop.isStopRequested = true ∧ p.requestStop.requestStop = p.requestStop :=
  ⟨rfl, rfl⟩

/-- With the flag set, the loop returns as soon as `pangolin::ShouldQuit()`
reports `true`: after `d` further calls that report `false`. -/
theorem loop_returns_of_shouldQuit (shouldQuit : Nat → Bool) (p : PangolinPlotter) :
    ∀ (d n fuel : Nat), (∀ m, m < d → shouldQuit (n + m) = false) → shouldQuit (n + d) = true →
      d + 1 ≤ fuel → p.requestStop.loop shouldQuit fuel n = some (n + d) := by
  intro d
  induction d with
  | zero =>
    intro n fuel _ hq hf
    obtain ⟨f, rfl⟩ : ∃ f, fuel = f + 1 := ⟨fuel - 1, by omega⟩
    simp only [Nat.add_zero] at hq
    simp [loop, hq]
  | succ d ih =>
    intro n fuel hfalse hq hf
    obtain ⟨f, rfl⟩ : ∃ f, fuel = f + 1 + 1 := ⟨fuel - 2, by omega⟩
    have h0 : shouldQuit n = false := by simpa using hfalse 0 (by omega)
    have hrec := ih (n + 1) (f + 1)
      (fun m hm => by
        have := hfalse (m + 1) (by omega)
        rwa [show n + (m + 1) = n + 1 + m by omega] at this)
      (by rwa [show n + (d + 1) = n + 1 + d by omega] at hq) (by omega)
    rw [loop]
    simp only [h0, Bool.not_false, if_true, renderLoop_requestStop]
    rw [hrec]
    congr 1
    omega

/-- C11: after `requestStop()` has set the stop flag, the flag stays set, but
`PangolinPlotter::loop()` does not return while `pangolin::ShouldQuit()` keeps
reporting `false`: whatever the number of evaluations of the outer condition it
is granted, it has not returned, and the join of the destructor does not
complete. -/
theorem loop_spins_after_requestStop (p : PangolinPlotter) (fuel n : Nat) :
    p.requestStop.isStopRequested = true
      ∧ p.requestStop.loop (fun _ => false) fuel n = none
      ∧ p.destructor (fun _ => false) fuel n = none := by
  have hloop : ∀ (fuel n : Nat), p.requestStop.loop (fun _ => false) fuel n = none := by
    intro fuel
    induction fuel with
    | zero => intro n; rfl
    | succ fuel ih =>
      intro n
      rw [loop]
      simp only [Bool.not_false, if_true]
      cases p.requestStop.renderLoop fuel with
      | none => rfl
      | some _ => exact ih (n + 1)
  refine ⟨rfl, hloop fuel n, ?_⟩
  simp [destructor, hloop]

end PangolinPlotter

/-! ### Skew symmetric matrices -/

/-- C12: for every 3-vector `w`, `skewSymmetric w` is the cross-product matrix
of `w`: its transpose is its negation, its diagonal is zero, and for every
3-vector `v` the product `skewSymmetric w * v` is the cross product `w × v`,
so that `skewSymmetric w * w = 0`. -/
theorem skewSymmetric_mulVec_eq_crossProduct (w v : Vector3) :
    (skewSymmetric w).transpose = -skewSymmetric w
      ∧ (∀ i, skewSymmetric w i i = 0)
      ∧ Matrix.mulVec (skewSymmetric w) v = crossProduct w v
      ∧ Matrix.mulVec (skewSymmetric w) w = 0 := by
  have hcross : ∀ u : Vector3, Matrix.mulVec (skewSymmetric w) u = crossProduct w u := by
    intro u
    funext i
    rw [cross_apply]
    fin_cases i <;>
      simp [skewSymmetric, Matrix.mulVec, Matrix.dotProduct, Fin.sum_univ_succ] <;> ring
  refine ⟨?_, ?_, hcross v, ?_⟩
  · ext i j
    fin_cases i <;> fin_cases j <;> simp [skewSymmetric]
  · intro i
    fin_cases i <;> simp [skewSymmetric]
  · rw [hcross w, cross_self]

end ze
